import Mathlib

/-!
# The Lox scanner of `CraftingInterpreters.cpp`

A shallow embedding of the classes `Token` and `Scanner` of
`src/CraftingInterpreters/CraftingInterpreters.cpp`, followed by theorems about it.

Modelling conventions.

* A C++ `char` is a Lean `Char`, a `std::string` or `std::string_view` is the `List Char`
  of its characters.  The scanner only compares characters with ASCII constants, so a
  byte outside ASCII behaves like any other unrecognised character.
* The cursors `start`, `current`, `line` are C++ `int`s.  They only count upwards from
  `0`, `0`, `1` and stay below the length of the source plus one, so they are natural
  numbers here; sources are taken to be shorter than `2 ^ 31` characters.
* The callback `error_handler` is modelled by the log `errors` of its calls, in order.
* `std::stod` reports a range error by throwing `std::out_of_range`.  Nothing in the
  program catches it, so every function on the path of the exception returns an
  `Except`.
* A C++ `while` loop runs on fuel (`whileLoop`).  The scanner always hands out the fuel
  `length(source) - current`, and the theorems show that this is enough for the loop to
  stop because its condition fails.
-/

namespace Lox

/-! ## Tokens -/

/-- The enumeration `TokenType`. -/
inductive TokenType
  | LEFT_PAREN | RIGHT_PAREN | LEFT_BRACE | RIGHT_BRACE
  | COMMA | DOT | MINUS | PLUS | SEMICOLON | SLASH | STAR
  | BANG | BANG_EQUAL
  | EQUAL | EQUAL_EQUAL
  | GREATER | GREATER_EQUAL
  | LESS | LESS_EQUAL
  | IDENTIFIER | STRING | NUMBER
  | AND | CLASS | ELSE | FALSE | FUN | FOR | IF | NIL | OR
  | PRINT | RETURN | SUPER | THIS | TRUE | VAR | WHILE
  | EOF_LOX
  deriving DecidableEq, Repr

/-- A finite non-negative `double`: the value `mant * 2 ^ exp`, with `mant` odd, or
`mant = 0` and `exp = 0` for zero. -/
structure Double where
  mant : Nat
  exp : Int
  deriving DecidableEq, Repr

/-- The alternatives of `std::variant<double, std::string>`. -/
inductive LiteralValue
  | number (d : Double)
  | text (s : List Char)
  deriving DecidableEq, Repr

/-- The type `Token::Literal`, a `std::optional` of the variant. -/
abbrev Literal := Option LiteralValue

/-- The class `Token`: the four private fields set by its constructor. -/
structure Token where
  type : TokenType
  lexeme : List Char
  literal : Literal
  line : Nat
  deriving DecidableEq, Repr

/-! ## The conversion `std::stod` -/

/-- The exceptions `std::stod` can throw. -/
inductive Exception
  | invalid_argument
  | out_of_range
  deriving DecidableEq, Repr

/-- The function `Scanner::isDigit`. -/
def isDigit (c : Char) : Bool := decide ('0' ≤ c) && decide (c ≤ '9')

/-- The function `Scanner::isAlpha`. -/
def isAlpha (c : Char) : Bool :=
  (decide ('a' ≤ c) && decide (c ≤ 'z')) ||
    (decide ('A' ≤ c) && decide (c ≤ 'Z')) ||
    c == '_'

/-- The function `Scanner::isAlphaNumeric`. -/
def isAlphaNumeric (c : Char) : Bool := isAlpha c || isDigit c

/-- The number written by a run of decimal digits. -/
def decimalValue (ds : List Char) : Nat :=
  ds.foldl (fun acc c => 10 * acc + (c.toNat - '0'.toNat)) 0

/-- Reads a text of the shape `digits` or `digits.digits` (both runs non-empty) as the
fraction `m / 10 ^ k`; this is the only shape `scanNumber` hands to `std::stod`.  Any
other text gives `none`. -/
def parseDecimal (text : List Char) : Option (Nat × Nat) :=
  let ip := text.takeWhile isDigit
  match text.drop ip.length with
  | [] => if ip = [] then none else some (decimalValue ip, 0)
  | c :: fr =>
    if c = '.' ∧ ip ≠ [] ∧ fr ≠ [] ∧ fr.all isDigit = true then
      some (decimalValue (ip ++ fr), fr.length)
    else none

/-- Rounds `num / den` to the nearest natural number, ties to the even one. -/
def roundHalfEven (num den : Nat) : Nat :=
  let q := num / den
  let r := num % den
  if 2 * r < den then q
  else if den < 2 * r then q + 1
  else if q % 2 = 0 then q else q + 1

/-- The loop of `log2`, on fuel. -/
def log2Loop : Nat → Nat → Nat
  | 0, _ => 0
  | fuel + 1, n => if n < 2 then 0 else 1 + log2Loop fuel (n / 2)

/-- The number `a` with `2 ^ a ≤ n < 2 ^ (a + 1)`, for positive `n`. -/
def log2 (n : Nat) : Nat := log2Loop n n

/-- The integer `e` with `2 ^ e ≤ num / den < 2 ^ (e + 1)`, for positive `num`, `den`. -/
def floorLog2 (num den : Nat) : Int :=
  let a := log2 num
  let b := log2 den
  if b ≤ a then
    if den * 2 ^ (a - b) ≤ num then ((a - b : Nat) : Int) else ((a - b : Nat) : Int) - 1
  else
    if den ≤ num * 2 ^ (b - a) then -((b - a : Nat) : Int) else -((b - a : Nat) : Int) - 1

/-- The `double` `n * 2 ^ sh` for `n ≤ 2 ^ 53`, in lowest terms. -/
def Double.ofScaled (n : Nat) (sh : Int) : Double :=
  if n = 0 then ⟨0, 0⟩
  else
    let g := Nat.gcd n (2 ^ 53)
    ⟨n / g, sh + (log2 g : Int)⟩

/-- The conversion `strtod` on the fraction `m / 10 ^ k`: the nearest `double`
(round to nearest, ties to even), or `none` for the range error `ERANGE`.  The error is
reported when the result overflows the finite `double`s, and on underflow: when a
non-zero value lies below the smallest normal `double` `2 ^ (-1022)`, is not itself a
`double` (the subnormal result is inexact), and still lies below `2 ^ (-1022)` after
rounding to 53 bits.  A value that is exactly a subnormal `double`, and a value that
rounds up to `2 ^ (-1022)`, are returned without error. -/
def strtod (m k : Nat) : Option Double :=
  if m = 0 then some ⟨0, 0⟩
  else
    let den := 10 ^ k
    let e := floorLog2 m den
    if 1023 < e then none
    else
      let sh := e - 52
      let n := if 0 ≤ sh then roundHalfEven m (den * 2 ^ sh.toNat)
               else roundHalfEven (m * 2 ^ (-sh).toNat) den
      if e = 1023 ∧ n = 2 ^ 53 then none
      else if -1022 ≤ e then some (Double.ofScaled n sh)
      else
        let sub := roundHalfEven (m * 2 ^ 1074) den
        if sub * den = m * 2 ^ 1074 then some (Double.ofScaled sub (-1074))
        else if e = -1023 ∧ n = 2 ^ 53 then some (Double.ofScaled sub (-1074))
        else none

/-- The library function `std::stod` on a decimal text: `std::invalid_argument` when no
conversion can be performed, `std::out_of_range` when `strtod` reports `ERANGE`, and the
converted value otherwise. -/
def stod (text : List Char) : Except Exception Double :=
  match parseDecimal text with
  | none => .error .invalid_argument
  | some (m, k) =>
    match strtod m k with
    | none => .error .out_of_range
    | some d => .ok d

deriving instance DecidableEq for Except

/-! ## The scanner -/

/-- The class `Scanner`: its data members, with the calls of `error_handler` logged in
`errors` as pairs of line and message. -/
structure Scanner where
  source : List Char
  tokens : List Token
  errors : List (Nat × String)
  start : Nat
  current : Nat
  line : Nat
  deriving DecidableEq, Repr

/-- The static table `Scanner::keywords`. -/
def keywords : List (List Char × TokenType) :=
  [("and".toList, .AND),
   ("class".toList, .CLASS),
   ("else".toList, .ELSE),
   ("false".toList, .FALSE),
   ("for".toList, .FOR),
   ("fun".toList, .FUN),
   ("if".toList, .IF),
   ("nil".toList, .NIL),
   ("or".toList, .OR),
   ("print".toList, .PRINT),
   ("return".toList, .RETURN),
   ("super".toList, .SUPER),
   ("this".toList, .THIS),
   ("true".toList, .TRUE),
   ("var".toList, .VAR),
   ("while".toList, .WHILE)]

/-- The lookup `keywords.find(text)`: the mapped kind, or `none` for `keywords.end()`. -/
def keywordsFind (text : List Char) : Option TokenType :=
  (keywords.find? (fun kv => decide (kv.1 = text))).map (fun kv => kv.2)

/-- The member function `std::string::substr(pos, count)` for `pos ≤ size()`: the
characters `[pos, min(pos + count, size()))`. -/
def substr (s : List Char) (pos count : Nat) : List Char := (s.drop pos).take count

/-- The null character that `peek` and `peekNext` return at the end of the source. -/
def nul : Char := Char.ofNat 0

/-- A C++ `while (cond) body;` on fuel. -/
def whileLoop (cond : Scanner → Bool) (body : Scanner → Scanner) : Nat → Scanner → Scanner
  | 0, s => s
  | n + 1, s => if cond s then whileLoop cond body n (body s) else s

namespace Scanner

/-- The constructor `Scanner(s, err_handler)` with the default member initialisers. -/
def new (s : List Char) : Scanner :=
  { source := s, tokens := [], errors := [], start := 0, current := 0, line := 1 }

/-- The fuel handed to every loop: the number of characters not yet consumed. -/
def fuel (s : Scanner) : Nat := s.source.length - s.current

/-- The call `error_handler(line, message)`. -/
def error_handler (s : Scanner) (line : Nat) (message : String) : Scanner :=
  { s with errors := s.errors ++ [(line, message)] }

/-- The function `Scanner::isAtEnd`. -/
def isAtEnd (s : Scanner) : Bool := decide (s.source.length ≤ s.current)

/-- The function `Scanner::advance`: the character read and the scanner after it. -/
def advance (s : Scanner) : Char × Scanner :=
  (s.source.getD s.current nul, { s with current := s.current + 1 })

/-- The function `Scanner::match`. -/
def matchChar (s : Scanner) (expected : Char) : Bool × Scanner :=
  if s.isAtEnd then (false, s)
  else if s.source.getD s.current nul ≠ expected then (false, s)
  else (true, { s with current := s.current + 1 })

/-- The function `Scanner::peek`. -/
def peek (s : Scanner) : Char :=
  if s.isAtEnd then nul else s.source.getD s.current nul

/-- The function `Scanner::peekNext`. -/
def peekNext (s : Scanner) : Char :=
  if s.source.length ≤ s.current + 1 then nul else s.source.getD (s.current + 1) nul

/-- The function `Scanner::addToken(type, literal)`. -/
def addToken (s : Scanner) (type : TokenType) (literal : Literal) : Scanner :=
  let text := (s.source.drop s.start).take (s.current - s.start)
  { s with tokens := s.tokens ++ [⟨type, text, literal, s.line⟩] }

/-- The function `Scanner::scanIdentifier`. -/
def scanIdentifier (s : Scanner) : Scanner :=
  let s := whileLoop (fun s => isAlphaNumeric s.peek) (fun s => s.advance.2) s.fuel s
  let text := substr s.source s.start s.current
  let type := match keywordsFind text with
    | some keyword => keyword
    | none => TokenType.IDENTIFIER
  s.addToken type none

/-- The function `Scanner::scanNumber`; the exception of `std::stod` passes through. -/
def scanNumber (s : Scanner) : Except Exception Scanner :=
  let s := whileLoop (fun s => isDigit s.peek) (fun s => s.advance.2) s.fuel s
  let s :=
    if s.peek = '.' ∧ isDigit s.peekNext = true then
      let s := s.advance.2
      whileLoop (fun s => isDigit s.peek) (fun s => s.advance.2) s.fuel s
    else s
  match stod ((s.source.drop s.start).take (s.current - s.start)) with
  | .error e => .error e
  | .ok d => .ok (s.addToken .NUMBER (some (.number d)))

/-- The function `Scanner::scanString`. -/
def scanString (s : Scanner) : Scanner :=
  let s := whileLoop (fun s => decide (s.peek ≠ '\"') && !s.isAtEnd)
    (fun s => (if s.peek = '\n' then { s with line := s.line + 1 } else s).advance.2) s.fuel s
  if s.isAtEnd then s.error_handler s.line "Unterminated string."
  else
    let s := s.advance.2
    let text := (s.source.drop s.start).take (s.current - s.start)
    s.addToken .STRING (some (.text text))

/-- The function `Scanner::scanToken`. -/
def scanToken (s : Scanner) : Except Exception Scanner :=
  let (c, s) := s.advance
  if c = '(' then .ok (s.addToken .LEFT_PAREN none)
  else if c = ')' then .ok (s.addToken .RIGHT_PAREN none)
  else if c = '{' then .ok (s.addToken .LEFT_BRACE none)
  else if c = '}' then .ok (s.addToken .RIGHT_BRACE none)
  else if c = ',' then .ok (s.addToken .COMMA none)
  else if c = '.' then .ok (s.addToken .DOT none)
  else if c = '-' then .ok (s.addToken .MINUS none)
  else if c = '+' then .ok (s.addToken .PLUS none)
  else if c = ';' then .ok (s.addToken .SEMICOLON none)
  else if c = '*' then .ok (s.addToken .STAR none)
  else if c = '!' then
    let (m, s) := s.matchChar '='
    .ok (s.addToken (if m then .BANG_EQUAL else .BANG) none)
  else if c = '=' then
    let (m, s) := s.matchChar '='
    .ok (s.addToken (if m then .EQUAL_EQUAL else .EQUAL) none)
  else if c = '<' then
    let (m, s) := s.matchChar '='
    .ok (s.addToken (if m then .LESS_EQUAL else .LESS) none)
  else if c = '>' then
    let (m, s) := s.matchChar '='
    .ok (s.addToken (if m then .GREATER_EQUAL else .GREATER) none)
  else if c = '/' then
    let (m, s) := s.matchChar '/'
    if m then
      .ok (whileLoop (fun s => decide (s.peek ≠ '\n') && !s.isAtEnd)
        (fun s => s.advance.2) s.fuel s)
    else .ok (s.addToken .SLASH none)
  else if c = ' ' ∨ c = '\r' ∨ c = '\t' then .ok s
  else if c = '\n' then .ok { s with line := s.line + 1 }
  else if c = '\"' then .ok s.scanString
  else if isDigit c then s.scanNumber
  else if isAlpha c then .ok s.scanIdentifier
  else .ok (s.error_handler s.line "Unexpected character")

/-- The loop of `Scanner::scanTokens`, on fuel. -/
def scanLoop : Nat → Scanner → Except Exception Scanner
  | 0, s => .ok s
  | n + 1, s =>
    if !s.isAtEnd then
      match scanToken { s with start := s.current } with
      | .error e => .error e
      | .ok s => scanLoop n s
    else .ok s

/-- The function `Scanner::scanTokens`: the scanner after the call; the vector returned
is its field `tokens`. -/
def scanTokens (s : Scanner) : Except Exception Scanner :=
  match scanLoop s.fuel s with
  | .error e => .error e
  | .ok s => .ok { s with tokens := s.tokens ++ [⟨.EOF_LOX, [], none, s.line⟩] }

end Scanner

/-! ## A list view of the scanner

The definitions below read `scanToken` and the loop of `scanTokens` off the unread rest
`c :: tl` of the source.  They are what the proofs work with; the theorems
`Scanner.scanToken_eq` and `scan_eq` show that the scanner above computes them. -/

/-- What a call of `scanToken` hands out: nothing, one token, or one call of the error
handler. -/
inductive Emit
  | nothing
  | token (type : TokenType) (literal : Literal)
  | error (message : String)
  deriving DecidableEq, Repr

/-- The effect of one call of `scanToken`: how many characters it consumes, by how much
it raises `line`, and what it hands out. -/
structure Step where
  consumed : Nat
  newlines : Nat
  emit : Emit
  deriving DecidableEq, Repr

/-- The scanner after a step that began with `start = current`. -/
def Step.apply (st : Step) (s : Scanner) : Scanner :=
  let s1 := { s with current := s.current + st.consumed, line := s.line + st.newlines }
  match st.emit with
  | .nothing => s1
  | .token type literal => s1.addToken type literal
  | .error message => s1.error_handler s1.line message

/-- The tokens a step appends, for the unread rest `rest` and the line `line` before. -/
def Step.tokens (st : Step) (line : Nat) (rest : List Char) : List Token :=
  match st.emit with
  | .token type literal => [⟨type, rest.take st.consumed, literal, line + st.newlines⟩]
  | _ => []

/-- The calls of the error handler a step makes, for the line `line` before. -/
def Step.errors (st : Step) (line : Nat) : List (Nat × String) :=
  match st.emit with
  | .error message => [(line + st.newlines, message)]
  | _ => []

/-- The step of `scanString` after the opening quote, on the rest `tl` behind it. -/
def lexString (tl : List Char) : Step :=
  let body := tl.takeWhile (fun c => decide (c ≠ '\"'))
  if tl.drop body.length = [] then
    ⟨1 + body.length, body.count '\n', .error "Unterminated string."⟩
  else
    ⟨body.length + 2, body.count '\n',
      .token .STRING (some (.text (('\"' :: tl).take (body.length + 2))))⟩

/-- The number of characters `scanNumber` consumes behind the first digit. -/
def numberLength (tl : List Char) : Nat :=
  let ds := tl.takeWhile isDigit
  let after := tl.drop ds.length
  if after.headD nul = '.' ∧ isDigit (after.tail.headD nul) = true then
    ds.length + 1 + (after.tail.takeWhile isDigit).length
  else ds.length

/-- The step of `scanNumber` after the first digit `c`. -/
def lexNumber (c : Char) (tl : List Char) : Except Exception Step :=
  match stod ((c :: tl).take (1 + numberLength tl)) with
  | .error e => .error e
  | .ok d => .ok ⟨1 + numberLength tl, 0, .token .NUMBER (some (.number d))⟩

/-- The step of `scanIdentifier` after the first character `c`, which stood at the
offset `i` of the source. -/
def lexIdentifier (i : Nat) (c : Char) (tl : List Char) : Step :=
  let n := 1 + (tl.takeWhile isAlphaNumeric).length
  let type := match keywordsFind ((c :: tl).take (i + n)) with
    | some keyword => keyword
    | none => TokenType.IDENTIFIER
  ⟨n, 0, .token type none⟩

/-- The spelling of the kinds that `scanToken` gives to a single character. -/
def oneCharTokens : List (Char × TokenType) :=
  [('(', .LEFT_PAREN), (')', .RIGHT_PAREN), ('{', .LEFT_BRACE), ('}', .RIGHT_BRACE),
   (',', .COMMA), ('.', .DOT), ('-', .MINUS), ('+', .PLUS), (';', .SEMICOLON), ('*', .STAR),
   ('!', .BANG), ('=', .EQUAL), ('<', .LESS), ('>', .GREATER), ('/', .SLASH)]

/-- The first character of the kinds that `scanToken` gives to a character followed by
`=`. -/
def twoCharTokens : List (Char × TokenType) :=
  [('!', .BANG_EQUAL), ('=', .EQUAL_EQUAL), ('<', .LESS_EQUAL), ('>', .GREATER_EQUAL)]

/-- The step of `scanToken` on the unread rest `c :: tl`, which begins at the offset `i`
of the source. -/
def lexOne (i : Nat) (c : Char) (tl : List Char) : Except Exception Step :=
  if c = '(' then .ok ⟨1, 0, .token .LEFT_PAREN none⟩
  else if c = ')' then .ok ⟨1, 0, .token .RIGHT_PAREN none⟩
  else if c = '{' then .ok ⟨1, 0, .token .LEFT_BRACE none⟩
  else if c = '}' then .ok ⟨1, 0, .token .RIGHT_BRACE none⟩
  else if c = ',' then .ok ⟨1, 0, .token .COMMA none⟩
  else if c = '.' then .ok ⟨1, 0, .token .DOT none⟩
  else if c = '-' then .ok ⟨1, 0, .token .MINUS none⟩
  else if c = '+' then .ok ⟨1, 0, .token .PLUS none⟩
  else if c = ';' then .ok ⟨1, 0, .token .SEMICOLON none⟩
  else if c = '*' then .ok ⟨1, 0, .token .STAR none⟩
  else if c = '!' then
    .ok (if tl.head? = some '=' then ⟨2, 0, .token .BANG_EQUAL none⟩
      else ⟨1, 0, .token .BANG none⟩)
  else if c = '=' then
    .ok (if tl.head? = some '=' then ⟨2, 0, .token .EQUAL_EQUAL none⟩
      else ⟨1, 0, .token .EQUAL none⟩)
  else if c = '<' then
    .ok (if tl.head? = some '=' then ⟨2, 0, .token .LESS_EQUAL none⟩
      else ⟨1, 0, .token .LESS none⟩)
  else if c = '>' then
    .ok (if tl.head? = some '=' then ⟨2, 0, .token .GREATER_EQUAL none⟩
      else ⟨1, 0, .token .GREATER none⟩)
  else if c = '/' then
    .ok (if tl.head? = some '/' then
        ⟨2 + (tl.tail.takeWhile (fun c => decide (c ≠ '\n'))).length, 0, .nothing⟩
      else ⟨1, 0, .token .SLASH none⟩)
  else if c = ' ' ∨ c = '\r' ∨ c = '\t' then .ok ⟨1, 0, .nothing⟩
  else if c = '\n' then .ok ⟨1, 1, .nothing⟩
  else if c = '\"' then .ok (lexString tl)
  else if isDigit c then lexNumber c tl
  else if isAlpha c then .ok (lexIdentifier i c tl)
  else .ok ⟨1, 0, .error "Unexpected character"⟩

/-- The loop of `scanTokens` on the unread rest, which begins at the offset `i` with the
line counter at `line`: the tokens appended, the calls of the error handler, and the
final line. -/
def lexAll : Nat → Nat → Nat → List Char →
    Except Exception (List Token × List (Nat × String) × Nat)
  | 0, _, line, _ => .ok ([], [], line)
  | _ + 1, _, line, [] => .ok ([], [], line)
  | n + 1, i, line, c :: tl =>
    match lexOne i c tl with
    | .error e => .error e
    | .ok st =>
      match lexAll n (i + st.consumed) (line + st.newlines) (tl.drop (st.consumed - 1)) with
      | .error e => .error e
      | .ok (ts, es, l) => .ok (st.tokens line (c :: tl) ++ ts, st.errors line ++ es, l)

/-- A fresh scanner on `src` runs `scanTokens`: the tokens returned and the calls made
to the error handler. -/
def scan (src : List Char) : Except Exception (List Token × List (Nat × String)) :=
  match (Scanner.new src).scanTokens with
  | .error e => .error e
  | .ok s => .ok (s.tokens, s.errors)

/-! ## Notions used in the statements -/

/-- The characters that begin no lexeme and are not skipped: not a punctuation
character, not one of `!`, `=`, `<`, `>`, not a space, carriage return or tab, not a
double quote, not a newline, not a digit, not a letter and not an underscore. -/
def isUnrecognized (c : Char) : Prop :=
  c ∉ ['(', ')', '{', '}', ',', '.', '-', '+', ';', '*', '/'] ∧
  c ∉ ['!', '=', '<', '>'] ∧
  c ∉ [' ', '\r', '\t'] ∧
  c ≠ '\"' ∧ c ≠ '\n' ∧
  isDigit c = false ∧ isAlpha c = false

instance (c : Char) : Decidable (isUnrecognized c) := by
  unfold isUnrecognized
  infer_instance

/-- The calls of the error handler expected for a source of newlines and unrecognized
characters: one call per character that is not a newline, in source order, with the
line `1` plus the number of newlines before that character. -/
def unexpectedCalls (src : List Char) : List (Nat × String) :=
  (List.range src.length).filterMap (fun i =>
    if src.getD i nul = '\n' then none
    else some (1 + (src.take i).count '\n', "Unexpected character"))

/-! ## Printing tokens -/

/-- The table `TokenNames`. -/
def TokenNames : List String :=
  ["LEFT_PAREN", "RIGHT_PAREN", "LEFT_BRACE", "RIGHT_BRACE",
   "COMMA", "DOT", "MINUS", "PLUS", "SEMICOLON", "SLASH", "STAR",
   "BANG", "BANG_EQUAL",
   "EQUAL", "EQUAL_EQUAL",
   "GREATER", "GREATER_EQUAL",
   "LESS", "LESS_EQUAL",
   "IDENTIFIER", "STRING", "NUMBER",
   "AND", "CLASS", "ELSE", "FALSE", "FUN", "FOR", "IF", "NIL", "OR",
   "PRINT", "RETURN", "SUPER", "THIS", "TRUE", "VAR", "WHILE",
   "EOF_LOX"]

/-- The conversion `int(type)`: the position of the enumerator in the declaration of
`TokenType`, counted from `0`. -/
def TokenType.toInt (type : TokenType) : Nat := type.toCtorIdx

namespace Token

/-- The function `Token::getLiteral`.  The library function `std::to_string(double)` is
the parameter `to_string`. -/
def getLiteral (to_string : Double → List Char) (t : Token) : List Char :=
  match t.literal with
  | none => []
  | some (.number d) => to_string d
  | some (.text s) => s

/-- The function `Token::toString`. -/
def toString (to_string : Double → List Char) (t : Token) : List Char :=
  (TokenNames.getD t.type.toInt "").toList ++ " ".toList ++ t.lexeme ++ " ".toList ++
    t.getLiteral to_string

end Token

/-- The name of each enumerator of `TokenType`, as written in its declaration. -/
def enumeratorName : TokenType → String
  | .LEFT_PAREN => "LEFT_PAREN"
  | .RIGHT_PAREN => "RIGHT_PAREN"
  | .LEFT_BRACE => "LEFT_BRACE"
  | .RIGHT_BRACE => "RIGHT_BRACE"
  | .COMMA => "COMMA"
  | .DOT => "DOT"
  | .MINUS => "MINUS"
  | .PLUS => "PLUS"
  | .SEMICOLON => "SEMICOLON"
  | .SLASH => "SLASH"
  | .STAR => "STAR"
  | .BANG => "BANG"
  | .BANG_EQUAL => "BANG_EQUAL"
  | .EQUAL => "EQUAL"
  | .EQUAL_EQUAL => "EQUAL_EQUAL"
  | .GREATER => "GREATER"
  | .GREATER_EQUAL => "GREATER_EQUAL"
  | .LESS => "LESS"
  | .LESS_EQUAL => "LESS_EQUAL"
  | .IDENTIFIER => "IDENTIFIER"
  | .STRING => "STRING"
  | .NUMBER => "NUMBER"
  | .AND => "AND"
  | .CLASS => "CLASS"
  | .ELSE => "ELSE"
  | .FALSE => "FALSE"
  | .FUN => "FUN"
  | .FOR => "FOR"
  | .IF => "IF"
  | .NIL => "NIL"
  | .OR => "OR"
  | .PRINT => "PRINT"
  | .RETURN => "RETURN"
  | .SUPER => "SUPER"
  | .THIS => "THIS"
  | .TRUE => "TRUE"
  | .VAR => "VAR"
  | .WHILE => "WHILE"
  | .EOF_LOX => "EOF_LOX"

/-! ## The lexical grammar -/

/-- A word: a letter or underscore followed by letters, digits and underscores. -/
def isWord (lx : List Char) : Prop :=
  ∃ c rest, lx = c :: rest ∧ isAlpha c = true ∧ ∀ x ∈ rest, isAlphaNumeric x = true

/-- A number: a non-empty run of digits, optionally followed by one dot and a non-empty
run of digits. -/
def isNumberText (lx : List Char) : Prop :=
  ∃ ds, ds ≠ [] ∧ (∀ x ∈ ds, isDigit x = true) ∧
    (lx = ds ∨ ∃ fs, fs ≠ [] ∧ (∀ x ∈ fs, isDigit x = true) ∧ lx = ds ++ '.' :: fs)

/-- A string: a double quote, a text without double quote, and a double quote. -/
def isStringText (lx : List Char) : Prop :=
  ∃ body, '\"' ∉ body ∧ lx = '\"' :: body ++ ['\"']

/-- The lexical grammar: the lexemes a token of each kind may have. -/
def lexemeGrammar : TokenType → List Char → Prop
  | .LEFT_PAREN, lx => lx = ['(']
  | .RIGHT_PAREN, lx => lx = [')']
  | .LEFT_BRACE, lx => lx = ['{']
  | .RIGHT_BRACE, lx => lx = ['}']
  | .COMMA, lx => lx = [',']
  | .DOT, lx => lx = ['.']
  | .MINUS, lx => lx = ['-']
  | .PLUS, lx => lx = ['+']
  | .SEMICOLON, lx => lx = [';']
  | .SLASH, lx => lx = ['/']
  | .STAR, lx => lx = ['*']
  | .BANG, lx => lx = ['!']
  | .BANG_EQUAL, lx => lx = ['!', '=']
  | .EQUAL, lx => lx = ['=']
  | .EQUAL_EQUAL, lx => lx = ['=', '=']
  | .GREATER, lx => lx = ['>']
  | .GREATER_EQUAL, lx => lx = ['>', '=']
  | .LESS, lx => lx = ['<']
  | .LESS_EQUAL, lx => lx = ['<', '=']
  | .NUMBER, lx => isNumberText lx
  | .STRING, lx => isStringText lx
  | .EOF_LOX, lx => lx = []
  | _, lx => isWord lx

/-! ## The cursor invariant -/

/-- The cursor invariant `0 <= start <= current <= length(source)` and `line >= 1`. -/
def Scanner.Inv (s : Scanner) : Prop :=
  s.start ≤ s.current ∧ s.current ≤ s.source.length ∧ 1 ≤ s.line

/-- The condition and the body of the four `while` loops of the scanner: the loops over
digits in `scanNumber`, the loop of `scanIdentifier`, the loop over a comment in
`scanToken`, and the loop of `scanString`. -/
def Scanner.loops : List ((Scanner → Bool) × (Scanner → Scanner)) :=
  [(fun s => isDigit s.peek, fun s => s.advance.2),
   (fun s => isAlphaNumeric s.peek, fun s => s.advance.2),
   (fun s => decide (s.peek ≠ '\n') && !s.isAtEnd, fun s => s.advance.2),
   (fun s => decide (s.peek ≠ '\"') && !s.isAtEnd,
    fun s => (if s.peek = '\n' then { s with line := s.line + 1 } else s).advance.2)]

/-! ## The spans handed to `std::stod` -/

/-- The scanner after the two loops of `scanNumber`, before the conversion. -/
def Scanner.numberEnd (s : Scanner) : Scanner :=
  let s := whileLoop (fun s => isDigit s.peek) (fun s => s.advance.2) s.fuel s
  if s.peek = '.' ∧ isDigit s.peekNext = true then
    let s := s.advance.2
    whileLoop (fun s => isDigit s.peek) (fun s => s.advance.2) s.fuel s
  else s

/-- The span `[start, current)` that `scanNumber` hands to `std::stod`. -/
def Scanner.numberSpan (s : Scanner) : List Char :=
  (s.numberEnd.source.drop s.numberEnd.start).take (s.numberEnd.current - s.numberEnd.start)

/-- The spans that the calls of `scanNumber` made by the main loop hand to `std::stod`,
in order: the main loop on fuel, noting the span of every call of `scanToken` that reads
a digit first, up to the first call that throws. -/
def Scanner.convertedSpans : Nat → Scanner → List (List Char)
  | 0, _ => []
  | n + 1, s =>
    if !s.isAtEnd then
      let s0 : Scanner := { s with start := s.current }
      let here := if isDigit s0.advance.1 then [s0.advance.2.numberSpan] else []
      match s0.scanToken with
      | .error _ => here
      | .ok s' => here ++ convertedSpans n s'
    else []

/-- The spans of the source `src` that a fresh scanner hands to `std::stod`. -/
def numberSpans (src : List Char) : List (List Char) :=
  (Scanner.new src).convertedSpans src.length

/-! ## Reading the source through the unread rest -/

theorem getD_eq_headD_drop (l : List Char) (i : Nat) (d : Char) :
    l.getD i d = (l.drop i).headD d := by
  induction l generalizing i with
  | nil => simp
  | cons a l ih =>
    cases i with
    | zero => simp
    | succ i => simp

namespace Scanner

theorem isAtEnd_eq (s : Scanner) : s.isAtEnd = decide (s.source.drop s.current = []) := by
  simp [isAtEnd, List.drop_eq_nil_iff]

theorem peek_eq (s : Scanner) : s.peek = (s.source.drop s.current).headD nul := by
  unfold peek
  rw [isAtEnd_eq]
  by_cases h : s.source.drop s.current = []
  · simp [h]
  · simp [h, getD_eq_headD_drop]

theorem peekNext_eq (s : Scanner) :
    s.peekNext = (s.source.drop s.current).tail.headD nul := by
  unfold peekNext
  rw [List.tail_drop]
  by_cases h : s.source.length ≤ s.current + 1
  · simp [h, List.drop_eq_nil_iff.mpr h]
  · simp [h, getD_eq_headD_drop]

theorem advance_fst (s : Scanner) : s.advance.1 = (s.source.drop s.current).headD nul := by
  simp [advance, getD_eq_headD_drop]

end Scanner

theorem whileLoop_advance (p : Char → Bool) (cond : Scanner → Bool)
    (hc : ∀ s, cond s = (!s.isAtEnd && p s.peek)) :
    ∀ (n : Nat) (s : Scanner), s.fuel ≤ n →
      whileLoop cond (fun s => s.advance.2) n s =
        { s with current := s.current + ((s.source.drop s.current).takeWhile p).length } := by
  intro n
  induction n with
  | zero =>
    intro s hn
    have h : s.source.drop s.current = [] := by
      simp only [Scanner.fuel] at hn
      exact List.drop_eq_nil_iff.mpr (by omega)
    simp [whileLoop, h]
  | succ n ih =>
    intro s hn
    rw [whileLoop, hc, Scanner.isAtEnd_eq, Scanner.peek_eq]
    cases h : s.source.drop s.current with
    | nil => simp
    | cons c tl =>
      have htl : s.source.drop (s.current + 1) = tl := by
        rw [← List.tail_drop, h]; rfl
      by_cases hp : p c = true
      · have hf : (s.advance.2).fuel ≤ n := by
          have : s.current < s.source.length := by
            by_contra hlt
            rw [List.drop_eq_nil_iff.mpr (by omega)] at h
            exact List.noConfusion h
          simp only [Scanner.fuel, Scanner.advance] at hn ⊢
          omega
        simp only [List.headD_cons, hp, reduceCtorEq, decide_False, Bool.not_false,
          Bool.and_self, ↓reduceIte]
        rw [ih _ hf]
        simp [Scanner.advance, htl, List.takeWhile_cons, hp]
        omega
      · simp [hp, List.takeWhile_cons]

theorem whileLoop_string (cond : Scanner → Bool) (body : Scanner → Scanner)
    (hc : ∀ s, cond s = (!s.isAtEnd && decide (s.peek ≠ '\"')))
    (hb : ∀ s, body s =
      { s with current := s.current + 1, line := s.line + if s.peek = '\n' then 1 else 0 }) :
    ∀ (n : Nat) (s : Scanner), s.fuel ≤ n →
      whileLoop cond body n s =
        { s with
          current := s.current +
            ((s.source.drop s.current).takeWhile (fun c => decide (c ≠ '\"'))).length,
          line := s.line +
            ((s.source.drop s.current).takeWhile (fun c => decide (c ≠ '\"'))).count '\n' } := by
  intro n
  induction n with
  | zero =>
    intro s hn
    have h : s.source.drop s.current = [] := by
      simp only [Scanner.fuel] at hn
      exact List.drop_eq_nil_iff.mpr (by omega)
    simp [whileLoop, h]
  | succ n ih =>
    intro s hn
    rw [whileLoop, hc, hb, Scanner.isAtEnd_eq, Scanner.peek_eq]
    cases h : s.source.drop s.current with
    | nil => simp
    | cons c tl =>
      have htl : s.source.drop (s.current + 1) = tl := by
        rw [← List.tail_drop, h]; rfl
      have hlt : s.current < s.source.length := by
        by_contra hlt
        rw [List.drop_eq_nil_iff.mpr (by omega)] at h
        exact List.noConfusion h
      by_cases hp : c = '\"'
      · simp [hp, List.takeWhile_cons]
      · simp only [List.headD_cons, ne_eq, hp, not_false_eq_true, decide_True, reduceCtorEq,
          decide_False, Bool.not_false, Bool.and_self, ↓reduceIte]
        rw [ih _ (by simp only [Scanner.fuel] at hn ⊢; omega)]
        by_cases hnl : c = '\n'
        · subst hnl
          simp [htl, List.takeWhile_cons]
          omega
        · have hnl' : ¬ '\n' = c := fun h => hnl h.symm
          simp [htl, List.takeWhile_cons, hp, List.count_cons, hnl, hnl']
          omega

namespace Scanner

theorem matchChar_eq (s : Scanner) (expected : Char) :
    s.matchChar expected =
      if (s.source.drop s.current).head? = some expected then
        (true, { s with current := s.current + 1 })
      else (false, s) := by
  unfold matchChar
  rw [isAtEnd_eq, getD_eq_headD_drop]
  cases h : s.source.drop s.current with
  | nil => simp
  | cons c tl =>
    by_cases hc : c = expected
    · simp [hc]
    · simp [hc]

end Scanner

namespace Scanner

theorem drop_add_of_drop {src : List Char} {i : Nat} {c : Char} {tl : List Char}
    (h : src.drop i = c :: tl) (k : Nat) : src.drop (i + 1 + k) = tl.drop k := by
  rw [← List.drop_drop, ← List.tail_drop, h]; rfl

theorem scanString_eq (s : Scanner) (c : Char) (tl : List Char)
    (h : s.source.drop s.current = c :: tl) (hs : s.start = s.current) (hq : c = '\"') :
    ({ s with current := s.current + 1 } : Scanner).scanString = (lexString tl).apply s := by
  obtain ⟨src, toks, errs, st, cur, ln⟩ := s
  simp only at h hs
  subst hs hq
  have h0 := drop_add_of_drop h 0
  simp only [Nat.add_zero, List.drop_zero] at h0
  unfold scanString
  rw [whileLoop_string _ _ (fun s => by simp [Bool.and_comm])
    (fun s => by by_cases hp : s.peek = '\n' <;> simp [advance, hp]) _ _ (le_refl _)]
  simp only [isAtEnd_eq, h0, drop_add_of_drop h]
  unfold lexString
  by_cases hend : tl.drop (tl.takeWhile (fun c => decide (c ≠ '\"'))).length = []
  · simp only [hend, decide_True, if_true, Step.apply, error_handler]
    simp
    omega
  · simp only [hend, decide_False, if_false, Step.apply, addToken, advance, h]
    simp
    constructor
    · have e : st + 1 + (List.takeWhile (fun c => !decide (c = '\"')) tl).length + 1 - st
          = ((List.takeWhile (fun c => !decide (c = '\"')) tl).length + 1) + 1 := by omega
      rw [e]
      simp
    · omega

end Scanner

theorem isDigit_nul : isDigit nul = false := by decide

theorem isAlphaNumeric_nul : isAlphaNumeric nul = false := by decide

namespace Scanner

theorem cond_of_nul (p : Char → Bool) (hp : p nul = false) (s : Scanner) :
    p s.peek = (!s.isAtEnd && p s.peek) := by
  rw [isAtEnd_eq, peek_eq]
  cases h : s.source.drop s.current with
  | nil => simp [hp]
  | cons c tl => simp

theorem scanNumber_eq (s : Scanner) (c : Char) (tl : List Char)
    (h : s.source.drop s.current = c :: tl) (hs : s.start = s.current) :
    ({ s with current := s.current + 1 } : Scanner).scanNumber =
      match lexNumber c tl with
      | .error e => .error e
      | .ok st => .ok (st.apply s) := by
  obtain ⟨src, toks, errs, st, cur, ln⟩ := s
  simp only at h hs
  subst hs
  have h0 := drop_add_of_drop h 0
  simp only [Nat.add_zero, List.drop_zero] at h0
  have hd := whileLoop_advance isDigit (fun s => isDigit s.peek) (cond_of_nul isDigit isDigit_nul)
  unfold scanNumber
  simp only [hd _ _ (le_refl _)]
  simp only [peek_eq, peekNext_eq, advance, h0, drop_add_of_drop h]
  unfold lexNumber numberLength
  by_cases hfrac : (tl.drop (tl.takeWhile isDigit).length).headD nul = '.' ∧
      isDigit ((tl.drop (tl.takeWhile isDigit).length).tail.headD nul) = true
  · simp only [hfrac, and_self, if_true]
    have e1 : List.drop (st + 1 + (List.takeWhile isDigit tl).length + 1) src =
        (tl.drop (tl.takeWhile isDigit).length).tail := by
      rw [Nat.add_assoc (st + 1), drop_add_of_drop h, ← List.drop_drop, List.drop_one]
    have e2 : ∀ n, st + 1 + (List.takeWhile isDigit tl).length + 1 + n - st =
        1 + ((List.takeWhile isDigit tl).length + 1 + n) := by intro n; omega
    simp only [e1, e2, h]
    cases stod (List.take (1 + ((List.takeWhile isDigit tl).length + 1 +
        (List.takeWhile isDigit (List.drop (List.takeWhile isDigit tl).length tl).tail).length))
        (c :: tl)) with
    | error e => rfl
    | ok d =>
      simp [Step.apply, addToken, h]
      refine ⟨?_, by omega⟩
      congr 1
      try omega
  · simp only [hfrac, if_false]
    have e2 : st + 1 + (List.takeWhile isDigit tl).length - st =
        1 + (List.takeWhile isDigit tl).length := by omega
    simp only [e2, h]
    cases stod (List.take (1 + (List.takeWhile isDigit tl).length) (c :: tl)) with
    | error e => rfl
    | ok d =>
      simp [Step.apply, addToken, h]
      refine ⟨?_, by omega⟩
      congr 1
      try omega

end Scanner

namespace Scanner

theorem scanIdentifier_eq (s : Scanner) (c : Char) (tl : List Char)
    (h : s.source.drop s.current = c :: tl) (hs : s.start = s.current) :
    ({ s with current := s.current + 1 } : Scanner).scanIdentifier =
      (lexIdentifier s.current c tl).apply s := by
  obtain ⟨src, toks, errs, st, cur, ln⟩ := s
  simp only at h hs
  subst hs
  have h0 := drop_add_of_drop h 0
  simp only [Nat.add_zero, List.drop_zero] at h0
  have hd := whileLoop_advance isAlphaNumeric (fun s => isAlphaNumeric s.peek)
    (cond_of_nul isAlphaNumeric isAlphaNumeric_nul)
  unfold scanIdentifier
  simp only [hd _ _ (le_refl _)]
  simp only [h0, substr, h, lexIdentifier, Step.apply, addToken]
  have e : st + 1 + (List.takeWhile isAlphaNumeric tl).length =
      st + (1 + (List.takeWhile isAlphaNumeric tl).length) := by omega
  rw [e]
  simp

theorem scanComment_eq (s : Scanner) :
    whileLoop (fun s => decide (s.peek ≠ '\n') && !s.isAtEnd) (fun s => s.advance.2) s.fuel s =
      { s with current := s.current +
          ((s.source.drop s.current).takeWhile (fun c => decide (c ≠ '\n'))).length } :=
  whileLoop_advance (fun c => decide (c ≠ '\n')) _ (fun s => by simp [Bool.and_comm]) _ _
    (le_refl _)

theorem scanToken_eq (s : Scanner) (c : Char) (tl : List Char)
    (h : s.source.drop s.current = c :: tl) (hs : s.start = s.current) :
    s.scanToken =
      match lexOne s.current c tl with
      | .error e => .error e
      | .ok st => .ok (st.apply s) := by
  have hstr := scanString_eq s c tl h hs
  have hnum := scanNumber_eq s c tl h hs
  have hid := scanIdentifier_eq s c tl h hs
  have hadv : s.advance = (c, { s with current := s.current + 1 }) := by
    rw [advance, getD_eq_headD_drop, h]; rfl
  have h0 : s.source.drop (s.current + 1) = tl := by
    have := drop_add_of_drop h 0
    simpa using this
  have hcom := scanComment_eq { s with current := s.current + 1 + 1 }
  have h1 : s.source.drop (s.current + 1 + 1) = tl.tail := by
    have := drop_add_of_drop h 1
    simpa using this
  have hone : ∀ (ty : TokenType),
      ({ s with current := s.current + 1 } : Scanner).addToken ty none =
        Step.apply ⟨1, 0, .token ty none⟩ s := by
    intro ty; simp [Step.apply]
  have htwo : ∀ (ty : TokenType),
      ({ s with current := s.current + 1 + 1 } : Scanner).addToken ty none =
        Step.apply ⟨2, 0, .token ty none⟩ s := by
    intro ty; simp [Step.apply, Nat.add_assoc]
  have hcomment : whileLoop (fun s => decide (s.peek ≠ '\n') && !s.isAtEnd)
      (fun s => s.advance.2) ({ s with current := s.current + 1 + 1 } : Scanner).fuel
      { s with current := s.current + 1 + 1 } =
      Step.apply ⟨2 + (tl.tail.takeWhile (fun c => decide (c ≠ '\n'))).length, 0, .nothing⟩ s := by
    rw [hcom]
    simp only [h1]
    simp [Step.apply, Nat.add_assoc]
  have hws : ({ s with current := s.current + 1 } : Scanner) = Step.apply ⟨1, 0, .nothing⟩ s := by
    simp [Step.apply]
  have hnl : ({ s with current := s.current + 1, line := s.line + 1 } : Scanner) =
      Step.apply ⟨1, 1, .nothing⟩ s := by
    simp [Step.apply]
  have herr : ({ s with current := s.current + 1 } : Scanner).error_handler s.line
      "Unexpected character" = Step.apply ⟨1, 0, .error "Unexpected character"⟩ s := by
    simp [Step.apply, error_handler]
  unfold scanToken lexOne
  rw [hadv]
  dsimp only
  rw [matchChar_eq, matchChar_eq, h0]
  by_cases c1 : c = '('
  · rw [if_pos c1, if_pos c1]; exact congrArg Except.ok (hone _)
  rw [if_neg c1, if_neg c1]
  by_cases c2 : c = ')'
  · rw [if_pos c2, if_pos c2]; exact congrArg Except.ok (hone _)
  rw [if_neg c2, if_neg c2]
  by_cases c3 : c = '{'
  · rw [if_pos c3, if_pos c3]; exact congrArg Except.ok (hone _)
  rw [if_neg c3, if_neg c3]
  by_cases c4 : c = '}'
  · rw [if_pos c4, if_pos c4]; exact congrArg Except.ok (hone _)
  rw [if_neg c4, if_neg c4]
  by_cases c5 : c = ','
  · rw [if_pos c5, if_pos c5]; exact congrArg Except.ok (hone _)
  rw [if_neg c5, if_neg c5]
  by_cases c6 : c = '.'
  · rw [if_pos c6, if_pos c6]; exact congrArg Except.ok (hone _)
  rw [if_neg c6, if_neg c6]
  by_cases c7 : c = '-'
  · rw [if_pos c7, if_pos c7]; exact congrArg Except.ok (hone _)
  rw [if_neg c7, if_neg c7]
  by_cases c8 : c = '+'
  · rw [if_pos c8, if_pos c8]; exact congrArg Except.ok (hone _)
  rw [if_neg c8, if_neg c8]
  by_cases c9 : c = ';'
  · rw [if_pos c9, if_pos c9]; exact congrArg Except.ok (hone _)
  rw [if_neg c9, if_neg c9]
  by_cases c10 : c = '*'
  · rw [if_pos c10, if_pos c10]; exact congrArg Except.ok (hone _)
  rw [if_neg c10, if_neg c10]
  by_cases c11 : c = '!'
  · rw [if_pos c11, if_pos c11]
    by_cases hm : tl.head? = some '='
    · rw [if_pos hm, if_pos hm]; exact congrArg Except.ok (htwo _)
    · rw [if_neg hm, if_neg hm]; exact congrArg Except.ok (hone _)
  rw [if_neg c11, if_neg c11]
  by_cases c12 : c = '='
  · rw [if_pos c12, if_pos c12]
    by_cases hm : tl.head? = some '='
    · rw [if_pos hm, if_pos hm]; exact congrArg Except.ok (htwo _)
    · rw [if_neg hm, if_neg hm]; exact congrArg Except.ok (hone _)
  rw [if_neg c12, if_neg c12]
  by_cases c13 : c = '<'
  · rw [if_pos c13, if_pos c13]
    by_cases hm : tl.head? = some '='
    · rw [if_pos hm, if_pos hm]; exact congrArg Except.ok (htwo _)
    · rw [if_neg hm, if_neg hm]; exact congrArg Except.ok (hone _)
  rw [if_neg c13, if_neg c13]
  by_cases c14 : c = '>'
  · rw [if_pos c14, if_pos c14]
    by_cases hm : tl.head? = some '='
    · rw [if_pos hm, if_pos hm]; exact congrArg Except.ok (htwo _)
    · rw [if_neg hm, if_neg hm]; exact congrArg Except.ok (hone _)
  rw [if_neg c14, if_neg c14]
  by_cases c15 : c = '/'
  · rw [if_pos c15, if_pos c15]
    by_cases hm : tl.head? = some '/'
    · rw [if_pos hm, if_pos hm]; exact congrArg Except.ok hcomment
    · rw [if_neg hm, if_neg hm]; exact congrArg Except.ok (hone _)
  rw [if_neg c15, if_neg c15]
  by_cases c16 : c = ' ' ∨ c = '\r' ∨ c = '\t'
  · rw [if_pos c16, if_pos c16]; exact congrArg Except.ok hws
  rw [if_neg c16, if_neg c16]
  by_cases c17 : c = '\n'
  · rw [if_pos c17, if_pos c17]; exact congrArg Except.ok hnl
  rw [if_neg c17, if_neg c17]
  by_cases c18 : c = '\"'
  · rw [if_pos c18, if_pos c18]; exact congrArg Except.ok (hstr c18)
  rw [if_neg c18, if_neg c18]
  by_cases c19 : isDigit c = true
  · rw [if_pos c19, if_pos c19]; exact hnum
  rw [if_neg c19, if_neg c19]
  by_cases c20 : isAlpha c = true
  · rw [if_pos c20, if_pos c20]; exact congrArg Except.ok hid
  rw [if_neg c20, if_neg c20]
  exact congrArg Except.ok herr

end Scanner

/-! ## The cases of one step -/

/-- Case analysis on what `scanToken` does with the unread rest `c :: tl`. -/
theorem lexOne_cases (P : Except Exception Step → Prop) (i : Nat) (c : Char) (tl : List Char)
    (h_one : ∀ ty, (c, ty) ∈ oneCharTokens → P (.ok ⟨1, 0, .token ty none⟩))
    (h_two : ∀ ty, (c, ty) ∈ twoCharTokens → tl.head? = some '=' →
      P (.ok ⟨2, 0, .token ty none⟩))
    (h_comment : c = '/' → tl.head? = some '/' →
      P (.ok ⟨2 + (tl.tail.takeWhile (fun c => decide (c ≠ '\n'))).length, 0, .nothing⟩))
    (h_space : c = ' ' ∨ c = '\r' ∨ c = '\t' → P (.ok ⟨1, 0, .nothing⟩))
    (h_newline : c = '\n' → P (.ok ⟨1, 1, .nothing⟩))
    (h_string : c = '\"' → P (.ok (lexString tl)))
    (h_number : isDigit c = true → P (lexNumber c tl))
    (h_identifier : isAlpha c = true → P (.ok (lexIdentifier i c tl)))
    (h_other : c ≠ '\n' → c ≠ '\"' → isDigit c = false → isAlpha c = false →
      P (.ok ⟨1, 0, .error "Unexpected character"⟩)) :
    P (lexOne i c tl) := by
  unfold lexOne
  by_cases c1 : c = '('
  · rw [if_pos c1]; exact h_one _ (by subst c1; decide)
  rw [if_neg c1]
  by_cases c2 : c = ')'
  · rw [if_pos c2]; exact h_one _ (by subst c2; decide)
  rw [if_neg c2]
  by_cases c3 : c = '{'
  · rw [if_pos c3]; exact h_one _ (by subst c3; decide)
  rw [if_neg c3]
  by_cases c4 : c = '}'
  · rw [if_pos c4]; exact h_one _ (by subst c4; decide)
  rw [if_neg c4]
  by_cases c5 : c = ','
  · rw [if_pos c5]; exact h_one _ (by subst c5; decide)
  rw [if_neg c5]
  by_cases c6 : c = '.'
  · rw [if_pos c6]; exact h_one _ (by subst c6; decide)
  rw [if_neg c6]
  by_cases c7 : c = '-'
  · rw [if_pos c7]; exact h_one _ (by subst c7; decide)
  rw [if_neg c7]
  by_cases c8 : c = '+'
  · rw [if_pos c8]; exact h_one _ (by subst c8; decide)
  rw [if_neg c8]
  by_cases c9 : c = ';'
  · rw [if_pos c9]; exact h_one _ (by subst c9; decide)
  rw [if_neg c9]
  by_cases c10 : c = '*'
  · rw [if_pos c10]; exact h_one _ (by subst c10; decide)
  rw [if_neg c10]
  by_cases c11 : c = '!'
  · rw [if_pos c11]
    by_cases hm : tl.head? = some '='
    · rw [if_pos hm]; exact h_two _ (by subst c11; decide) hm
    · rw [if_neg hm]; exact h_one _ (by subst c11; decide)
  rw [if_neg c11]
  by_cases c12 : c = '='
  · rw [if_pos c12]
    by_cases hm : tl.head? = some '='
    · rw [if_pos hm]; exact h_two _ (by subst c12; decide) hm
    · rw [if_neg hm]; exact h_one _ (by subst c12; decide)
  rw [if_neg c12]
  by_cases c13 : c = '<'
  · rw [if_pos c13]
    by_cases hm : tl.head? = some '='
    · rw [if_pos hm]; exact h_two _ (by subst c13; decide) hm
    · rw [if_neg hm]; exact h_one _ (by subst c13; decide)
  rw [if_neg c13]
  by_cases c14 : c = '>'
  · rw [if_pos c14]
    by_cases hm : tl.head? = some '='
    · rw [if_pos hm]; exact h_two _ (by subst c14; decide) hm
    · rw [if_neg hm]; exact h_one _ (by subst c14; decide)
  rw [if_neg c14]
  by_cases c15 : c = '/'
  · rw [if_pos c15]
    by_cases hm : tl.head? = some '/'
    · rw [if_pos hm]; exact h_comment c15 hm
    · rw [if_neg hm]; exact h_one _ (by subst c15; decide)
  rw [if_neg c15]
  by_cases c16 : c = ' ' ∨ c = '\r' ∨ c = '\t'
  · rw [if_pos c16]; exact h_space c16
  rw [if_neg c16]
  by_cases c17 : c = '\n'
  · rw [if_pos c17]; exact h_newline c17
  rw [if_neg c17]
  by_cases c18 : c = '\"'
  · rw [if_pos c18]; exact h_string c18
  rw [if_neg c18]
  by_cases c19 : isDigit c = true
  · rw [if_pos c19]; exact h_number c19
  rw [if_neg c19]
  by_cases c20 : isAlpha c = true
  · rw [if_pos c20]; exact h_identifier c20
  rw [if_neg c20]
  exact h_other c17 c18 (by simpa using c19) (by simpa using c20)

theorem takeWhile_length_le (p : Char → Bool) (l : List Char) :
    (l.takeWhile p).length ≤ l.length :=
  (List.takeWhile_sublist p).length_le

theorem lexString_consumed (tl : List Char) :
    1 ≤ (lexString tl).consumed ∧ (lexString tl).consumed ≤ tl.length + 1 := by
  unfold lexString
  have hle := takeWhile_length_le (fun c => decide (c ≠ '\"')) tl
  by_cases hend : tl.drop (tl.takeWhile (fun c => decide (c ≠ '\"'))).length = []
  · simp only [hend, if_true]; omega
  · simp only [hend, if_false]
    have : (tl.takeWhile (fun c => decide (c ≠ '\"'))).length < tl.length := by
      by_contra hlt
      exact hend (List.drop_eq_nil_iff.mpr (by omega))
    omega

theorem numberLength_le (tl : List Char) : numberLength tl ≤ tl.length := by
  unfold numberLength
  have hle := takeWhile_length_le isDigit tl
  by_cases hfrac : (tl.drop (tl.takeWhile isDigit).length).headD nul = '.' ∧
      isDigit ((tl.drop (tl.takeWhile isDigit).length).tail.headD nul) = true
  · simp only [hfrac, and_self, if_true]
    have h1 := takeWhile_length_le isDigit (tl.drop (tl.takeWhile isDigit).length).tail
    have h2 : (tl.drop (tl.takeWhile isDigit).length) ≠ [] := by
      intro h0
      rw [h0] at hfrac
      exact absurd hfrac.1 (by decide)
    have h3 : 0 < (tl.drop (tl.takeWhile isDigit).length).length := List.length_pos.mpr h2
    simp only [List.length_tail, List.length_drop] at h1 h3
    omega
  · simp only [hfrac, if_false]; exact hle

theorem lexOne_consumed (i : Nat) (c : Char) (tl : List Char) (st : Step)
    (h : lexOne i c tl = .ok st) : 1 ≤ st.consumed ∧ st.consumed ≤ tl.length + 1 := by
  revert h
  refine lexOne_cases (fun r => r = .ok st → 1 ≤ st.consumed ∧ st.consumed ≤ tl.length + 1)
    i c tl ?_ ?_ ?_ ?_ ?_ ?_ ?_ ?_ ?_
  · intro ty _ h; cases h; simp
  · intro ty _ hm h; cases h
    cases tl with
    | nil => simp at hm
    | cons a tl => simp
  · intro _ hm h; cases h
    cases tl with
    | nil => simp at hm
    | cons a tl =>
      have := takeWhile_length_le (fun c => decide (c ≠ '\n')) tl
      simp only [List.tail_cons, List.length_cons]
      omega
  · intro _ h; cases h; simp
  · intro _ h; cases h; simp
  · intro _ h; cases h; exact lexString_consumed tl
  · intro _ h
    unfold lexNumber at h
    have := numberLength_le tl
    cases hs : stod ((c :: tl).take (1 + numberLength tl)) with
    | error e => rw [hs] at h; cases h
    | ok d => rw [hs] at h; cases h; simp only; omega
  · intro _ h; cases h
    have := takeWhile_length_le isAlphaNumeric tl
    simp only [lexIdentifier]; omega
  · intro _ _ _ _ h; cases h; simp

/-! ## The loop of `scanTokens` -/

namespace Scanner

theorem apply_fields (st : Step) (s : Scanner) (c : Char) (tl : List Char)
    (h : s.source.drop s.current = c :: tl) (hs : s.start = s.current) :
    (st.apply s).source = s.source ∧
    (st.apply s).current = s.current + st.consumed ∧
    (st.apply s).line = s.line + st.newlines ∧
    (st.apply s).tokens = s.tokens ++ st.tokens s.line (c :: tl) ∧
    (st.apply s).errors = s.errors ++ st.errors s.line := by
  obtain ⟨n, k, e⟩ := st
  cases e with
  | nothing => simp [Step.apply, Step.tokens, Step.errors]
  | token ty lit => simp [Step.apply, Step.tokens, Step.errors, addToken, hs, h]
  | error msg => simp [Step.apply, Step.tokens, Step.errors, error_handler]

/-- The loop of `scanTokens` computes `lexAll` on the unread rest, and with the fuel
`length(source) - current` it stops at the end of the source. -/
theorem scanLoop_lexAll : ∀ (n : Nat) (s : Scanner), s.fuel ≤ n →
    match lexAll n s.current s.line (s.source.drop s.current) with
    | .error e => scanLoop n s = .error e
    | .ok (ts, es, l) => ∃ s', scanLoop n s = .ok s' ∧ s'.source = s.source ∧
        s'.tokens = s.tokens ++ ts ∧ s'.errors = s.errors ++ es ∧ s'.line = l ∧
        s'.isAtEnd = true := by
  intro n
  induction n with
  | zero =>
    intro s hn
    have hend : s.isAtEnd = true := by
      simp only [fuel] at hn
      simp only [isAtEnd, decide_eq_true_eq]; omega
    simp [lexAll, scanLoop, hend]
  | succ n ih =>
    intro s hn
    cases h : s.source.drop s.current with
    | nil =>
      have hend : s.isAtEnd = true := by rw [isAtEnd_eq, h]; rfl
      simp [lexAll, scanLoop, hend]
    | cons c tl =>
      have hend : s.isAtEnd = false := by rw [isAtEnd_eq, h]; rfl
      have hst := scanToken_eq { s with start := s.current } c tl h rfl
      simp only [lexAll, scanLoop, hend, Bool.not_false, if_true, hst]
      cases hl : lexOne s.current c tl with
      | error e => simp
      | ok st =>
        simp only
        obtain ⟨h1, h2, h3, h4, h5⟩ :=
          apply_fields st { s with start := s.current } c tl h rfl
        have hc := lexOne_consumed _ _ _ _ hl
        have hlen : s.current < s.source.length := by
          by_contra hlt
          rw [List.drop_eq_nil_iff.mpr (by omega)] at h
          exact List.noConfusion h
        have hdrop : (st.apply { s with start := s.current }).source.drop
            (st.apply { s with start := s.current }).current = tl.drop (st.consumed - 1) := by
          rw [h1, h2]
          have := drop_add_of_drop h (st.consumed - 1)
          simp only at this ⊢
          rw [← this]; congr 1; omega
        have hfuel : (st.apply { s with start := s.current }).fuel ≤ n := by
          simp only [fuel, h1, h2] at hn ⊢
          omega
        have := ih _ hfuel
        rw [hdrop, h2, h3] at this
        simp only at this
        cases hr : lexAll n (s.current + st.consumed) (s.line + st.newlines)
            (tl.drop (st.consumed - 1)) with
        | error e => rw [hr] at this; simpa using this
        | ok r =>
          obtain ⟨ts, es, l⟩ := r
          rw [hr] at this
          obtain ⟨s', e1, e2, e3, e4, e5, e6⟩ := this
          refine ⟨s', e1, ?_, ?_, ?_, e5, e6⟩
          · rw [e2, h1]
          · rw [e3, h4]; simp
          · rw [e4, h5]; simp

end Scanner

/-- The scanner computes `lexAll` on the whole source and appends the end-of-input
token. -/
theorem scan_eq (src : List Char) :
    scan src =
      match lexAll src.length 0 1 src with
      | .error e => .error e
      | .ok (ts, es, l) => .ok (ts ++ [⟨.EOF_LOX, [], none, l⟩], es) := by
  have := Scanner.scanLoop_lexAll (Scanner.new src).fuel (Scanner.new src) (le_refl _)
  simp only [Scanner.new, Scanner.fuel, List.drop_zero, Nat.sub_zero] at this
  unfold scan Scanner.scanTokens
  simp only [Scanner.new, Scanner.fuel, Nat.sub_zero]
  cases hr : lexAll src.length 0 1 src with
  | error e => rw [hr] at this; simp [this]
  | ok r =>
    obtain ⟨ts, es, l⟩ := r
    rw [hr] at this
    obtain ⟨s', e1, e2, e3, e4, e5, e6⟩ := this
    simp [e1, e3, e4, e5]

/-! ## Properties of every token -/

theorem keywordsFind_mem (text : List Char) (k : TokenType)
    (h : keywordsFind text = some k) : (text, k) ∈ keywords := by
  unfold keywordsFind at h
  cases hf : keywords.find? (fun kv => decide (kv.1 = text)) with
  | none => rw [hf] at h; cases h
  | some kv =>
    rw [hf] at h
    have h1 := List.find?_some hf
    have h2 := List.mem_of_find?_eq_some hf
    simp only [Option.map_some', Option.some.injEq] at h
    simp only [decide_eq_true_eq] at h1
    rw [← h1, ← h]
    exact h2

/-- A property that holds for the token of every single step holds for all tokens of
the loop. -/
theorem lexAll_tokens_forall (Q : Token → Prop)
    (hQ : ∀ i c tl st line, lexOne i c tl = .ok st → ∀ t ∈ st.tokens line (c :: tl), Q t) :
    ∀ (n i line : Nat) (rest : List Char) (ts : List Token) (es : List (Nat × String))
      (l : Nat), lexAll n i line rest = .ok (ts, es, l) → ∀ t ∈ ts, Q t := by
  intro n
  induction n with
  | zero =>
    intro i line rest ts es l h t ht
    simp only [lexAll, Except.ok.injEq, Prod.mk.injEq] at h
    rw [← h.1] at ht
    cases ht
  | succ n ih =>
    intro i line rest ts es l h t ht
    cases rest with
    | nil =>
      simp only [lexAll, Except.ok.injEq, Prod.mk.injEq] at h
      rw [← h.1] at ht
      cases ht
    | cons c tl =>
      simp only [lexAll] at h
      cases hl : lexOne i c tl with
      | error e => rw [hl] at h; cases h
      | ok st =>
        rw [hl] at h
        simp only at h
        cases hr : lexAll n (i + st.consumed) (line + st.newlines)
            (tl.drop (st.consumed - 1)) with
        | error e => rw [hr] at h; cases h
        | ok r =>
          obtain ⟨ts', es', l'⟩ := r
          rw [hr] at h
          simp only [Except.ok.injEq, Prod.mk.injEq] at h
          rw [← h.1] at ht
          rcases List.mem_append.mp ht with ht | ht
          · exact hQ _ _ _ _ _ hl t ht
          · exact ih _ _ _ _ _ _ hr t ht

theorem lexOne_type_ne_eof (i : Nat) (c : Char) (tl : List Char) (st : Step) (line : Nat)
    (h : lexOne i c tl = .ok st) : ∀ t ∈ st.tokens line (c :: tl), t.type ≠ .EOF_LOX := by
  revert h
  refine lexOne_cases
    (fun r => r = .ok st → ∀ t ∈ st.tokens line (c :: tl), t.type ≠ .EOF_LOX)
    i c tl ?_ ?_ ?_ ?_ ?_ ?_ ?_ ?_ ?_
  · intro ty hty h t ht; cases h
    simp only [Step.tokens, List.mem_singleton] at ht
    subst ht
    intro he
    simp only at he
    subst he
    revert hty; simp [oneCharTokens]
  · intro ty hty _ h t ht; cases h
    simp only [Step.tokens, List.mem_singleton] at ht
    subst ht
    intro he
    simp only at he
    subst he
    revert hty; simp [twoCharTokens]
  · intro _ _ h t ht; cases h; simp [Step.tokens] at ht
  · intro _ h t ht; cases h; simp [Step.tokens] at ht
  · intro _ h t ht; cases h; simp [Step.tokens] at ht
  · intro _ h t ht; cases h
    simp only [lexString] at ht
    split_ifs at ht
    · simp [Step.tokens] at ht
    · simp only [Step.tokens, List.mem_singleton] at ht
      subst ht; simp
  · intro _ h t ht
    unfold lexNumber at h
    cases hs : stod ((c :: tl).take (1 + numberLength tl)) with
    | error e => rw [hs] at h; cases h
    | ok d =>
      rw [hs] at h; cases h
      simp only [Step.tokens, List.mem_singleton] at ht
      subst ht; simp
  · intro _ h t ht; cases h
    simp only [lexIdentifier, Step.tokens, List.mem_singleton] at ht
    subst ht
    simp only
    cases hk : keywordsFind ((c :: tl).take (i + (1 + (tl.takeWhile isAlphaNumeric).length))) with
    | none => simp
    | some k =>
      have := keywordsFind_mem _ _ hk
      simp only
      intro he
      subst he
      revert this; simp [keywords]
  · intro _ _ _ _ h t ht; cases h; simp [Step.tokens] at ht

/-- Claim C1: whenever `scanTokens` of a fresh scanner returns, for any source text
(the empty one included), the sequence returned is non-empty: it ends with a token of
kind `EOF_LOX` that has an empty lexeme and no literal, and no token before it has kind
`EOF_LOX`. -/
theorem scanTokens_ends_with_single_eof (src : List Char) (toks : List Token)
    (errs : List (Nat × String)) (h : scan src = .ok (toks, errs)) :
    toks ≠ [] ∧
    ∃ (init : List Token) (line : Nat),
      toks = init ++ [⟨.EOF_LOX, [], none, line⟩] ∧ ∀ t ∈ init, t.type ≠ .EOF_LOX := by
  rw [scan_eq] at h
  cases hr : lexAll src.length 0 1 src with
  | error e => rw [hr] at h; cases h
  | ok r =>
    obtain ⟨ts, es, l⟩ := r
    rw [hr] at h
    simp only [Except.ok.injEq, Prod.mk.injEq] at h
    refine ⟨by rw [← h.1]; simp, ts, l, h.1.symm, ?_⟩
    exact lexAll_tokens_forall _ (fun i c tl st line hl => lexOne_type_ne_eof i c tl st line hl)
      _ _ _ _ _ _ _ hr

theorem scanTokens_ends_with_single_eof_witness :
    scan "var x;".toList = .ok
      ([⟨.VAR, "var".toList, none, 1⟩, ⟨.IDENTIFIER, "x".toList, none, 1⟩,
        ⟨.SEMICOLON, ";".toList, none, 1⟩, ⟨.EOF_LOX, [], none, 1⟩], []) ∧
    ([⟨.VAR, "var".toList, none, 1⟩, ⟨.IDENTIFIER, "x".toList, none, 1⟩,
        ⟨.SEMICOLON, ";".toList, none, 1⟩, ⟨.EOF_LOX, [], none, 1⟩] : List Token) ≠ [] ∧
    ∃ (init : List Token) (line : Nat),
      ([⟨.VAR, "var".toList, none, 1⟩, ⟨.IDENTIFIER, "x".toList, none, 1⟩,
        ⟨.SEMICOLON, ";".toList, none, 1⟩, ⟨.EOF_LOX, [], none, 1⟩] : List Token) =
        init ++ [⟨.EOF_LOX, [], none, line⟩] ∧ ∀ t ∈ init, t.type ≠ .EOF_LOX :=
  ⟨by decide, scanTokens_ends_with_single_eof "var x;".toList _ [] (by decide)⟩

/-! ## The shape of number lexemes -/

theorem take_takeWhile_length (p : Char → Bool) (l : List Char) :
    l.take (l.takeWhile p).length = l.takeWhile p :=
  (List.prefix_iff_eq_take.mp (List.takeWhile_prefix p)).symm

theorem drop_takeWhile_length (p : Char → Bool) (l : List Char) :
    l.drop (l.takeWhile p).length = l.dropWhile p := by
  induction l with
  | nil => simp
  | cons a l ih =>
    by_cases h : p a = true
    · simp [List.takeWhile_cons, List.dropWhile_cons, h, ih]
    · simp [List.takeWhile_cons, List.dropWhile_cons, h]

theorem takeWhile_mem (p : Char → Bool) (l : List Char) : ∀ x ∈ l.takeWhile p, p x = true :=
  fun _ hx => List.mem_takeWhile_imp hx

/-- The span `scanNumber` hands to `std::stod`: the first digit, the digits behind it,
and, when a fraction was consumed, the dot and the non-empty run of digits behind it. -/
theorem number_lexeme (c : Char) (tl : List Char) :
    (c :: tl).take (1 + numberLength tl) = c :: tl.takeWhile isDigit ∨
    ∃ fs, fs ≠ [] ∧ (∀ x ∈ fs, isDigit x = true) ∧
      (c :: tl).take (1 + numberLength tl) = c :: tl.takeWhile isDigit ++ '.' :: fs := by
  simp only [numberLength]
  have hsplit := List.takeWhile_append_dropWhile isDigit tl
  have htake := take_takeWhile_length isDigit tl
  have hdrop := drop_takeWhile_length isDigit tl
  generalize tl.takeWhile isDigit = ds at hsplit htake hdrop ⊢
  rw [hdrop]
  by_cases hfrac : (tl.dropWhile isDigit).headD nul = '.' ∧
      isDigit ((tl.dropWhile isDigit).tail.headD nul) = true
  · right
    simp only [hfrac, and_self, if_true]
    obtain ⟨h1, h2⟩ := hfrac
    cases hd : tl.dropWhile isDigit with
    | nil => rw [hd] at h1; exact absurd h1 (by decide)
    | cons a more =>
      rw [hd] at h1 h2 hsplit
      simp only [List.headD_cons] at h1
      subst h1
      cases more with
      | nil => exact absurd h2 (by decide)
      | cons b more =>
        simp only [List.tail_cons, List.headD_cons] at h2
        refine ⟨(b :: more).takeWhile isDigit, ?_, takeWhile_mem _ _, ?_⟩
        · simp [List.takeWhile_cons, h2]
        · subst hsplit
          simp only [List.tail_cons]
          have e : 1 + (ds.length + 1 + ((b :: more).takeWhile isDigit).length) =
              (ds.length + (1 + ((b :: more).takeWhile isDigit).length)) + 1 := by omega
          rw [e, List.take_succ_cons, List.take_append, Nat.add_comm 1, List.take_succ_cons,
            take_takeWhile_length]
          rfl
  · left
    simp only [hfrac, if_false]
    rw [Nat.add_comm, List.take_succ_cons, htake]

theorem parseDecimal_digits (ds : List Char) (hne : ds ≠ [])
    (hd : ∀ x ∈ ds, isDigit x = true) : parseDecimal ds = some (decimalValue ds, 0) := by
  unfold parseDecimal
  have h1 : ds.takeWhile isDigit = ds := List.takeWhile_eq_self_iff.mpr hd
  simp [h1, hne]

theorem parseDecimal_fraction (ds fs : List Char) (hne : ds ≠ [])
    (hd : ∀ x ∈ ds, isDigit x = true) (hfne : fs ≠ []) (hf : ∀ x ∈ fs, isDigit x = true) :
    parseDecimal (ds ++ '.' :: fs) = some (decimalValue (ds ++ fs), fs.length) := by
  unfold parseDecimal
  have h1 : (ds ++ '.' :: fs).takeWhile isDigit = ds := by
    rw [List.takeWhile_append_of_pos hd]
    simp [List.takeWhile_cons, show isDigit '.' = false by decide]
  simp [h1, hne, hfne]
  exact hf

/-- The text `scanNumber` hands to `std::stod` is always a decimal number, so
`std::invalid_argument` is never thrown. -/
theorem lexNumber_ne_invalid (c : Char) (tl : List Char) (hc : isDigit c = true) :
    lexNumber c tl ≠ .error .invalid_argument := by
  unfold lexNumber stod
  have hds : ∀ x ∈ c :: tl.takeWhile isDigit, isDigit x = true := by
    intro x hx
    rcases List.mem_cons.mp hx with hx | hx
    · rw [hx]; exact hc
    · exact takeWhile_mem _ _ x hx
  rcases number_lexeme c tl with h | ⟨fs, hfne, hf, h⟩
  · rw [h, parseDecimal_digits _ (List.cons_ne_nil _ _) hds]
    simp only
    cases strtod (decimalValue (c :: tl.takeWhile isDigit)) 0 <;> simp
  · rw [h, parseDecimal_fraction _ _ (List.cons_ne_nil _ _) hds hfne hf]
    simp only
    cases strtod (decimalValue (c :: tl.takeWhile isDigit ++ fs)) fs.length <;> simp

/-! ## Character classes -/

theorem char_le_iff (a b : Char) : a ≤ b ↔ a.toNat ≤ b.toNat := Iff.rfl

theorem isDigit_iff (c : Char) : isDigit c = true ↔ 48 ≤ c.toNat ∧ c.toNat ≤ 57 := by
  simp only [isDigit, Bool.and_eq_true, decide_eq_true_eq, char_le_iff]
  rfl

theorem isAlpha_toNat (c : Char) (h : isAlpha c = true) :
    (97 ≤ c.toNat ∧ c.toNat ≤ 122) ∨ (65 ≤ c.toNat ∧ c.toNat ≤ 90) ∨ c.toNat = 95 := by
  simp only [isAlpha, Bool.or_eq_true, Bool.and_eq_true, decide_eq_true_eq, char_le_iff,
    beq_iff_eq] at h
  rcases h with (h | h) | h
  · exact Or.inl h
  · exact Or.inr (Or.inl h)
  · exact Or.inr (Or.inr (by rw [h]; rfl))

theorem isAlpha_of_isDigit (c : Char) (h : isDigit c = true) : isAlpha c = false := by
  cases ha : isAlpha c with
  | false => rfl
  | true =>
    have h1 := (isDigit_iff c).mp h
    have h2 := isAlpha_toNat c ha
    omega

theorem oneCharTokens_not_digit : ∀ p ∈ oneCharTokens, isAlphaNumeric p.1 = false := by decide

theorem twoCharTokens_not_digit : ∀ p ∈ twoCharTokens, isAlphaNumeric p.1 = false := by decide

theorem lexOne_digit (i : Nat) (c : Char) (tl : List Char) (h : isDigit c = true) :
    lexOne i c tl = lexNumber c tl := by
  have hn : isAlphaNumeric c = true := by simp [isAlphaNumeric, h]
  refine lexOne_cases (fun r => r = lexNumber c tl) i c tl ?_ ?_ ?_ ?_ ?_ ?_ ?_ ?_ ?_
  · intro ty hty; have := oneCharTokens_not_digit _ hty; simp only [hn] at this; cases this
  · intro ty hty; have := twoCharTokens_not_digit _ hty; simp only [hn] at this; cases this
  · intro hc; subst hc; exact absurd h (by decide)
  · intro hc; rcases hc with hc | hc | hc <;> subst hc <;> exact absurd h (by decide)
  · intro hc; subst hc; exact absurd h (by decide)
  · intro hc; subst hc; exact absurd h (by decide)
  · intro _; rfl
  · intro ha; rw [isAlpha_of_isDigit c h] at ha; cases ha
  · intro _ _ hd _; rw [h] at hd; cases hd

/-! ## When the scan returns -/

theorem lexAll_nil (n i line : Nat) : lexAll n i line [] = .ok ([], [], line) := by
  cases n <;> rfl

/-- A step only fails through `std::stod`, and only with `std::out_of_range`. -/
theorem lexOne_error (i : Nat) (c : Char) (tl : List Char) (e : Exception)
    (h : lexOne i c tl = .error e) :
    e = .out_of_range ∧ stod ((c :: tl).take (1 + numberLength tl)) = .error .out_of_range := by
  revert h
  refine lexOne_cases (fun r => r = .error e → e = .out_of_range ∧
    stod ((c :: tl).take (1 + numberLength tl)) = .error .out_of_range)
    i c tl ?_ ?_ ?_ ?_ ?_ ?_ ?_ ?_ ?_
  · intro _ _ h; cases h
  · intro _ _ _ h; cases h
  · intro _ _ h; cases h
  · intro _ h; cases h
  · intro _ h; cases h
  · intro _ h; cases h
  · intro hc h
    have hne := lexNumber_ne_invalid c tl hc
    rw [h] at hne
    have he : e = .out_of_range := by
      cases e with
      | invalid_argument => exact absurd rfl hne
      | out_of_range => rfl
    subst he
    refine ⟨rfl, ?_⟩
    unfold lexNumber at h
    cases hs : stod ((c :: tl).take (1 + numberLength tl)) with
    | error e' => rw [hs] at h; simp only [Except.error.injEq] at h; rw [h]
    | ok d => rw [hs] at h; cases h
  · intro _ h; cases h
  · intro _ _ _ _ h; cases h

theorem lexAll_ok (src : List Char)
    (H : ∀ i ≤ src.length, ∀ n ≤ src.length,
      stod ((src.drop i).take n) ≠ .error .out_of_range) :
    ∀ (n i line : Nat), ∃ r, lexAll n i line (src.drop i) = .ok r := by
  intro n
  induction n with
  | zero => intro i line; exact ⟨_, rfl⟩
  | succ n ih =>
    intro i line
    cases h : src.drop i with
    | nil => exact ⟨_, rfl⟩
    | cons c tl =>
      have hlen : i < src.length := by
        by_contra hlt
        rw [List.drop_eq_nil_iff.mpr (by omega)] at h
        exact List.noConfusion h
      have htl : tl.length + 1 = src.length - i := by
        have := congrArg List.length h
        simpa using this.symm
      simp only [lexAll]
      cases hl : lexOne i c tl with
      | error e =>
        exfalso
        have h2 := (lexOne_error i c tl e hl).2
        have hnl := numberLength_le tl
        rw [← h] at h2
        exact H i (by omega) _ (by omega) h2
      | ok st =>
        simp only
        have hc := lexOne_consumed _ _ _ _ hl
        have hdrop : tl.drop (st.consumed - 1) = src.drop (i + st.consumed) := by
          have := Scanner.drop_add_of_drop h (st.consumed - 1)
          rw [← this]; congr 1; omega
        rw [hdrop]
        obtain ⟨r, hr⟩ := ih (i + st.consumed) (line + st.newlines)
        rw [hr]
        exact ⟨_, rfl⟩

theorem numberLength_digits (tl : List Char) (h : ∀ x ∈ tl, isDigit x = true) :
    numberLength tl = tl.length := by
  have h1 : tl.takeWhile isDigit = tl := List.takeWhile_eq_self_iff.mpr h
  simp only [numberLength, h1, List.drop_length, List.headD_nil]
  rw [if_neg]
  rintro ⟨h2, _⟩
  exact absurd h2 (by decide)

/-- The scan of a source that is a non-empty run of digits. -/
theorem scan_digits (c : Char) (tl : List Char) (h : ∀ x ∈ c :: tl, isDigit x = true) :
    scan (c :: tl) =
      match stod (c :: tl) with
      | .error e => .error e
      | .ok d => .ok ([⟨.NUMBER, c :: tl, some (.number d), 1⟩, ⟨.EOF_LOX, [], none, 1⟩], []) := by
  have hc : isDigit c = true := h c (List.mem_cons_self _ _)
  have htl : ∀ x ∈ tl, isDigit x = true := fun x hx => h x (List.mem_cons_of_mem _ hx)
  have htake : (c :: tl).take (1 + tl.length) = c :: tl := by
    rw [Nat.add_comm, List.take_succ_cons, List.take_length]
  rw [scan_eq]
  simp only [List.length_cons, lexAll, lexOne_digit 0 c tl hc, lexNumber,
    numberLength_digits tl htl, htake]
  cases stod (c :: tl) with
  | error e => rfl
  | ok d => simp [lexAll_nil, Step.tokens, Step.errors, htake]

set_option maxRecDepth 100000 in
set_option exponentiation.threshold 2000 in
/-- Claim C4, counterexample: on the source made of 400 nines `std::stod` throws
`std::out_of_range`, and `scanTokens` does not return. -/
theorem scanTokens_throws_on_400_digits :
    scan (List.replicate 400 '9') = .error .out_of_range := by
  have h : ∀ x ∈ '9' :: List.replicate 399 '9', isDigit x = true := by decide
  have hs : stod ('9' :: List.replicate 399 '9') = .error .out_of_range := by decide
  have := scan_digits '9' (List.replicate 399 '9') h
  rw [hs] at this
  exact this

/-! ## String literals -/

theorem takeWhile_not_quote (s : List Char) (h : '\"' ∉ s) (more : List Char) :
    (s ++ '\"' :: more).takeWhile (fun c => decide (c ≠ '\"')) = s := by
  rw [List.takeWhile_append_of_pos]
  · simp [List.takeWhile_cons]
  · intro x hx
    simp only [ne_eq, decide_eq_true_eq]
    rintro rfl
    exact h hx

theorem lexString_unterminated (s : List Char) (h : '\"' ∉ s) :
    lexString s = ⟨1 + s.length, s.count '\n', .error "Unterminated string."⟩ := by
  have h1 : s.takeWhile (fun c => decide (c ≠ '\"')) = s := by
    apply List.takeWhile_eq_self_iff.mpr
    intro x hx
    simp only [ne_eq, decide_eq_true_eq]
    rintro rfl
    exact h hx
  simp only [lexString, h1, List.drop_length, if_true]

theorem lexString_terminated (s : List Char) (h : '\"' ∉ s) (more : List Char) :
    lexString (s ++ '\"' :: more) =
      ⟨s.length + 2, s.count '\n', .token .STRING (some (.text ('\"' :: s ++ ['\"'])))⟩ := by
  simp only [lexString, takeWhile_not_quote s h more, List.drop_left, if_neg (List.cons_ne_nil _ _)]
  have e : ('\"' :: (s ++ '\"' :: more)).take (s.length + 2) = '\"' :: s ++ ['\"'] := by
    rw [List.take_succ_cons, List.take_append]
    simp
  rw [e]

theorem lexOne_quote (i : Nat) (tl : List Char) : lexOne i '\"' tl = .ok (lexString tl) := by
  simp [lexOne]

/-- The scan of a source that is one terminated string literal. -/
theorem scan_string (s : List Char) (h : '\"' ∉ s) :
    scan ('\"' :: s ++ ['\"']) = .ok
      ([⟨.STRING, '\"' :: s ++ ['\"'], some (.text ('\"' :: s ++ ['\"'])), 1 + s.count '\n'⟩,
        ⟨.EOF_LOX, [], none, 1 + s.count '\n'⟩], []) := by
  rw [List.cons_append, scan_eq]
  have hl := lexString_terminated s h []
  simp only [List.length_cons, lexAll, lexOne_quote]
  rw [hl]
  have e1 : (s ++ ['\"']).drop (s.length + 2 - 1) = [] := by simp
  have e2 : ('\"' :: (s ++ ['\"'])).take (s.length + 2) = '\"' :: (s ++ ['\"']) := by
    apply List.take_of_length_le; simp
  simp [e1, lexAll_nil, Step.tokens, Step.errors, e2]

/-- Claim C3 (code bug): on the source `"abc"` the `STRING` token carries the text
`"abc"` with both quotes as its literal, not the text `abc` between the quotes: the
function `scanString` copies the whole span `[start, current)`. -/
theorem scanString_literal_keeps_quotes :
    scan "\"abc\"".toList = .ok
      ([⟨.STRING, "\"abc\"".toList, some (.text "\"abc\"".toList), 1⟩,
        ⟨.EOF_LOX, [], none, 1⟩], []) := by
  decide

/-- Claim C6: for a text `s` without a double quote, the scan of the source `"` followed
by `s` calls the error handler exactly once, with the message `Unterminated string.`
and the line `1` plus the number of newlines of `s`, and returns the end-of-input token
only. -/
theorem unterminated_string_reports_once (s : List Char) (h : '\"' ∉ s) :
    scan ('\"' :: s) = .ok
      ([⟨.EOF_LOX, [], none, 1 + s.count '\n'⟩], [(1 + s.count '\n', "Unterminated string.")]) := by
  rw [scan_eq]
  simp only [List.length_cons, lexAll, lexOne_quote, lexString_unterminated s h]
  have e1 : s.drop (1 + s.length - 1) = [] := by simp
  simp [e1, lexAll_nil, Step.tokens, Step.errors]

theorem unterminated_string_reports_once_witness :
    '\"' ∉ "ab\nc".toList ∧
    scan ('\"' :: "ab\nc".toList) = .ok
      ([⟨.EOF_LOX, [], none, 1 + "ab\nc".toList.count '\n'⟩],
        [(1 + "ab\nc".toList.count '\n', "Unterminated string.")]) :=
  ⟨by decide, unterminated_string_reports_once "ab\nc".toList (by decide)⟩

/-- Claim C2 (code bug): on the source `(for)` the reserved word `for` is scanned as an
`IDENTIFIER`, not as `FOR`: the function `scanIdentifier` looks up
`source.substr(start, current)`, which is the text `for)` here. -/
theorem keyword_inside_source_scans_as_identifier :
    scan "(for)".toList = .ok
      ([⟨.LEFT_PAREN, "(".toList, none, 1⟩, ⟨.IDENTIFIER, "for".toList, none, 1⟩,
        ⟨.RIGHT_PAREN, ")".toList, none, 1⟩, ⟨.EOF_LOX, [], none, 1⟩], []) := by
  decide

/-! ## Line counting -/

theorem dropWhile_head_not (p : Char → Bool) (l : List Char) (d : Char) (more : List Char)
    (h : l.dropWhile p = d :: more) : p d = false := by
  induction l with
  | nil => simp at h
  | cons a l ih =>
    by_cases ha : p a = true
    · rw [List.dropWhile_cons_of_pos ha] at h; exact ih h
    · rw [List.dropWhile_cons_of_neg ha] at h
      simp only [List.cons.injEq] at h
      rw [← h.1]; simpa using ha

/-- The lexeme of a string step: the text up to the closing quote, or to the end. -/
theorem lexString_take (tl : List Char) :
    ('\"' :: tl).take (lexString tl).consumed =
      '\"' :: tl.takeWhile (fun c => decide (c ≠ '\"')) ++
        (if tl.drop (tl.takeWhile (fun c => decide (c ≠ '\"'))).length = [] then [] else ['\"']) := by
  have hsplit := List.takeWhile_append_dropWhile (fun c => decide (c ≠ '\"')) tl
  have htake := take_takeWhile_length (fun c => decide (c ≠ '\"')) tl
  have hdrop := drop_takeWhile_length (fun c => decide (c ≠ '\"')) tl
  simp only [lexString]
  generalize tl.takeWhile (fun c => decide (c ≠ '\"')) = body at hsplit htake hdrop ⊢
  by_cases hend : tl.drop body.length = []
  · simp only [hend, if_true, List.append_nil]
    rw [Nat.add_comm, List.take_succ_cons, htake]
  · simp only [hend, if_false]
    rw [hdrop] at hend
    cases hd : tl.dropWhile (fun c => decide (c ≠ '\"')) with
    | nil => exact absurd hd hend
    | cons d more =>
      have hq := dropWhile_head_not _ _ _ _ hd
      simp only [ne_eq, decide_eq_false_iff_not, not_not] at hq
      subst hq
      rw [hd] at hsplit
      subst hsplit
      rw [List.take_succ_cons, List.take_append]
      simp

theorem lexOne_unrecognized (i : Nat) (c : Char) (tl : List Char) (h : isUnrecognized c) :
    lexOne i c tl = .ok ⟨1, 0, .error "Unexpected character"⟩ := by
  obtain ⟨h1, h2, h3, h4, h5, h6, h7⟩ := h
  refine lexOne_cases (fun r => r = .ok ⟨1, 0, .error "Unexpected character"⟩) i c tl
    ?_ ?_ ?_ ?_ ?_ ?_ ?_ ?_ ?_
  · intro ty hty
    exfalso
    simp only [oneCharTokens, List.mem_cons, Prod.mk.injEq, List.mem_singleton,
      List.not_mem_nil, or_false] at hty
    simp only [List.mem_cons, List.mem_singleton, List.not_mem_nil, or_false, not_or] at h1 h2
    rcases hty with h | h | h | h | h | h | h | h | h | h | h | h | h | h | h <;>
      simp_all
  · intro ty hty
    exfalso
    simp only [twoCharTokens, List.mem_cons, Prod.mk.injEq, List.mem_singleton,
      List.not_mem_nil, or_false] at hty
    simp only [List.mem_cons, List.mem_singleton, List.not_mem_nil, or_false, not_or] at h2
    rcases hty with h | h | h | h <;> simp_all
  · intro hc; exfalso; subst hc; simp at h1
  · intro hc; exfalso; rcases hc with hc | hc | hc <;> subst hc <;> simp at h3
  · intro hc; exact absurd hc h5
  · intro hc; exact absurd hc h4
  · intro hc; rw [h6] at hc; cases hc
  · intro hc; rw [h7] at hc; cases hc
  · intro _ _ _ _; rfl

theorem lexAll_unrecognized (src : List Char) (h : ∀ c ∈ src, c = '\n' ∨ isUnrecognized c) :
    ∀ (n i line : Nat), src.length - i ≤ n → i ≤ src.length →
      line = 1 + (src.take i).count '\n' →
      lexAll n i line (src.drop i) = .ok ([],
        (List.range' i (src.length - i)).filterMap (fun i =>
          if src.getD i nul = '\n' then none
          else some (1 + (src.take i).count '\n', "Unexpected character")),
        1 + src.count '\n') := by
  intro n
  induction n with
  | zero =>
    intro i line hn hi hline
    have hi' : i = src.length := by omega
    subst hi'
    simp [lexAll, hline]
  | succ n ih =>
    intro i line hn hi hline
    cases hr : src.drop i with
    | nil =>
      have hi' : i = src.length := by
        have := List.drop_eq_nil_iff.mp hr
        omega
      subst hi'
      simp [lexAll, hline]
    | cons c tl =>
      have htl : src.length - i = (src.length - (i + 1)) + 1 := by
        have := congrArg List.length hr
        simp at this
        omega
      have hget : src.getD i nul = c := by rw [getD_eq_headD_drop, hr]; rfl
      have hmem : c ∈ src := by
        have : c ∈ src.drop i := by rw [hr]; exact List.mem_cons_self _ _
        exact List.mem_of_mem_drop this
      have hdrop : tl = src.drop (i + 1) := by
        have := Scanner.drop_add_of_drop hr 0
        simpa using this.symm
      have htake : (src.take (i + 1)).count '\n' =
          (src.take i).count '\n' + List.count '\n' [c] := by
        rw [List.take_add, List.count_append, hr]; rfl
      rw [htl, List.range'_succ, List.filterMap_cons, hget]
      simp only [lexAll]
      rcases h c hmem with hc | hc
      · subst hc
        have hl : lexOne i '\n' tl = .ok ⟨1, 1, .nothing⟩ := by simp [lexOne]
        rw [hl]
        simp only [Nat.sub_self, List.drop_zero, if_true]
        rw [hdrop, ih (i + 1) (line + 1) (by omega) (by omega)
          (by rw [htake, hline]; simp; omega)]
        simp [Step.tokens, Step.errors]
      · rw [lexOne_unrecognized i c tl hc]
        have hne : c ≠ '\n' := hc.2.2.2.2.1
        simp only [Nat.sub_self, List.drop_zero, if_neg hne]
        rw [hdrop, ih (i + 1) (line + 0) (by omega) (by omega)
          (by rw [htake, hline, List.count_cons_of_ne hne.symm]; simp)]
        simp [Step.tokens, Step.errors, hline]

/-- Claim C7: for a source made only of newline characters and unrecognized characters,
the scan calls the error handler exactly once per unrecognized character, in source
order, each time with the message `Unexpected character` and the line `1` plus the
number of newlines before that character, and it returns the end-of-input token only. -/
theorem unexpected_characters_are_reported (src : List Char)
    (h : ∀ c ∈ src, c = '\n' ∨ isUnrecognized c) :
    scan src = .ok ([⟨.EOF_LOX, [], none, 1 + src.count '\n'⟩], unexpectedCalls src) := by
  rw [scan_eq]
  have := lexAll_unrecognized src h src.length 0 1 (by omega) (Nat.zero_le _) (by simp)
  rw [List.drop_zero] at this
  rw [this]
  simp [unexpectedCalls, List.range_eq_range']

theorem unexpected_characters_are_reported_witness :
    (∀ c ∈ "@\n#".toList, c = '\n' ∨ isUnrecognized c) ∧
    unexpectedCalls "@\n#".toList = [(1, "Unexpected character"), (2, "Unexpected character")] ∧
    scan "@\n#".toList =
      .ok ([⟨.EOF_LOX, [], none, 1 + "@\n#".toList.count '\n'⟩], unexpectedCalls "@\n#".toList) :=
  ⟨by decide, by decide, unexpected_characters_are_reported "@\n#".toList (by decide)⟩

/-! ## One- and two-character operators -/

theorem lexOne_operator (i : Nat) (c : Char) (one two : TokenType) (rest : List Char)
    (hc : (c, one, two) ∈ [('!', TokenType.BANG, TokenType.BANG_EQUAL),
      ('=', TokenType.EQUAL, TokenType.EQUAL_EQUAL), ('<', TokenType.LESS, TokenType.LESS_EQUAL),
      ('>', TokenType.GREATER, TokenType.GREATER_EQUAL)]) :
    lexOne i c rest = .ok (if rest.head? = some '=' then ⟨2, 0, .token two none⟩
      else ⟨1, 0, .token one none⟩) := by
  simp only [List.mem_cons, Prod.mk.injEq, List.mem_singleton, List.not_mem_nil, or_false] at hc
  rcases hc with ⟨rfl, rfl, rfl⟩ | ⟨rfl, rfl, rfl⟩ | ⟨rfl, rfl, rfl⟩ | ⟨rfl, rfl, rfl⟩ <;>
    simp [lexOne]

theorem operator_step_tokens (c : Char) (one two : TokenType) (rest : List Char) :
    (if rest.head? = some '=' then (⟨2, 0, .token two none⟩ : Step)
      else ⟨1, 0, .token one none⟩).tokens 1 (c :: rest) =
      [if rest.head? = some '=' then ⟨two, [c, '='], none, 1⟩ else ⟨one, [c], none, 1⟩] := by
  cases rest with
  | nil => simp [Step.tokens]
  | cons a rest =>
    by_cases ha : a = '='
    · subst ha; simp [Step.tokens]
    · simp [Step.tokens, ha]

/-- Claim C8: for `c` among `!`, `=`, `<`, `>` and every text `rest`, the first call of
`scanToken` on `c` followed by `rest` emits exactly one token, and that token is the
first token of the sequence whenever `scanTokens` returns: the two-character operator with
the lexeme `c=` when `rest` begins with `=`, and the one-character operator with the
lexeme `c` otherwise.  The source `<=` gives exactly `LESS_EQUAL` and the end-of-input
token. -/
theorem operator_maximal_munch (c : Char) (one two : TokenType) (rest : List Char)
    (hc : (c, one, two) ∈ [('!', TokenType.BANG, TokenType.BANG_EQUAL),
      ('=', TokenType.EQUAL, TokenType.EQUAL_EQUAL), ('<', TokenType.LESS, TokenType.LESS_EQUAL),
      ('>', TokenType.GREATER, TokenType.GREATER_EQUAL)]) :
    (∃ s, (Scanner.new (c :: rest)).scanToken = .ok s ∧
      s.tokens = [if rest.head? = some '=' then ⟨two, [c, '='], none, 1⟩
        else ⟨one, [c], none, 1⟩]) ∧
    (∀ toks errs, scan (c :: rest) = .ok (toks, errs) →
      toks.head? = some (if rest.head? = some '=' then ⟨two, [c, '='], none, 1⟩
        else ⟨one, [c], none, 1⟩)) ∧
    scan "<=".toList =
      .ok ([⟨.LESS_EQUAL, "<=".toList, none, 1⟩, ⟨.EOF_LOX, [], none, 1⟩], []) := by
  have hl := lexOne_operator 0 c one two rest hc
  have ht := operator_step_tokens c one two rest
  refine ⟨?_, ?_, by decide⟩
  · have h := Scanner.scanToken_eq (Scanner.new (c :: rest)) c rest rfl rfl
    have hf := Scanner.apply_fields (if rest.head? = some '=' then ⟨2, 0, .token two none⟩
      else ⟨1, 0, .token one none⟩) (Scanner.new (c :: rest)) c rest rfl rfl
    simp only [Scanner.new] at h hf
    rw [hl] at h
    simp only at h
    refine ⟨_, h, ?_⟩
    rw [hf.2.2.2.1, ht]
    rfl
  · intro toks errs h
    rw [scan_eq] at h
    simp only [List.length_cons, lexAll, hl] at h
    cases hr : lexAll rest.length
        (0 + (if rest.head? = some '=' then (⟨2, 0, .token two none⟩ : Step)
          else ⟨1, 0, .token one none⟩).consumed)
        (1 + (if rest.head? = some '=' then (⟨2, 0, .token two none⟩ : Step)
          else ⟨1, 0, .token one none⟩).newlines)
        (rest.drop ((if rest.head? = some '=' then (⟨2, 0, .token two none⟩ : Step)
          else ⟨1, 0, .token one none⟩).consumed - 1)) with
    | error e => rw [hr] at h; cases h
    | ok r =>
      obtain ⟨ts, es, l⟩ := r
      rw [hr] at h
      simp only [Except.ok.injEq, Prod.mk.injEq] at h
      rw [← h.1, ht]
      rfl

theorem operator_maximal_munch_witness :
    (∃ s, (Scanner.new ('!' :: "=1".toList)).scanToken = .ok s ∧
      s.tokens = [if "=1".toList.head? = some '=' then ⟨.BANG_EQUAL, ['!', '='], none, 1⟩
        else ⟨.BANG, ['!'], none, 1⟩]) ∧
    (∀ toks errs, scan ('!' :: "=1".toList) = .ok (toks, errs) →
      toks.head? = some (if "=1".toList.head? = some '=' then ⟨.BANG_EQUAL, ['!', '='], none, 1⟩
        else ⟨.BANG, ['!'], none, 1⟩)) ∧
    scan "<=".toList =
      .ok ([⟨.LESS_EQUAL, "<=".toList, none, 1⟩, ⟨.EOF_LOX, [], none, 1⟩], []) :=
  operator_maximal_munch '!' .BANG .BANG_EQUAL "=1".toList (by decide)

/-! ## A number followed by a dot -/

theorem numberLength_digits_dot (tl : List Char) (h : ∀ x ∈ tl, isDigit x = true) :
    numberLength (tl ++ ['.']) = tl.length := by
  have h1 : (tl ++ ['.']).takeWhile isDigit = tl := by
    rw [List.takeWhile_append_of_pos h]
    simp [List.takeWhile_cons, show isDigit '.' = false by decide]
  simp only [numberLength, h1, List.drop_left, List.tail_cons, List.headD_nil]
  rw [if_neg]
  rintro ⟨_, h2⟩
  exact absurd h2 (by decide)

/-- The scan of a non-empty run of digits followed by a dot. -/
theorem scan_digits_dot (c : Char) (tl : List Char) (h : ∀ x ∈ c :: tl, isDigit x = true) :
    scan (c :: tl ++ ['.']) =
      match stod (c :: tl) with
      | .error e => .error e
      | .ok d => .ok ([⟨.NUMBER, c :: tl, some (.number d), 1⟩, ⟨.DOT, ['.'], none, 1⟩,
          ⟨.EOF_LOX, [], none, 1⟩], []) := by
  have hc : isDigit c = true := h c (List.mem_cons_self _ _)
  have htl : ∀ x ∈ tl, isDigit x = true := fun x hx => h x (List.mem_cons_of_mem _ hx)
  have htake : (c :: (tl ++ ['.'])).take (1 + tl.length) = c :: tl := by
    rw [Nat.add_comm, List.take_succ_cons, List.take_left]
  have hdot : ∀ i, lexOne i '.' [] = .ok ⟨1, 0, .token .DOT none⟩ := by
    intro i; simp [lexOne]
  rw [List.cons_append, scan_eq]
  simp only [List.length_cons, List.length_append, List.length_nil, lexAll,
    lexOne_digit 0 c (tl ++ ['.']) hc, lexNumber, numberLength_digits_dot tl htl, htake]
  cases stod (c :: tl) with
  | error e => rfl
  | ok d =>
    have e1 : (tl ++ ['.']).drop (1 + tl.length - 1) = ['.'] := by
      rw [Nat.add_sub_cancel_left, List.drop_left]
    simp only [e1, lexAll, hdot]
    simp [lexAll_nil, Step.tokens, Step.errors, htake]

set_option maxRecDepth 100000 in
set_option exponentiation.threshold 2000 in
/-- Claim C9, counterexample: for the digit string `d` of 400 nines the scan of `d`
followed by a dot yields no tokens: `std::stod` throws `std::out_of_range`. -/
theorem number_dot_throws_on_400_digits :
    scan (List.replicate 400 '9' ++ ['.']) = .error .out_of_range := by
  have h : ∀ x ∈ '9' :: List.replicate 399 '9', isDigit x = true := by decide
  have hs : stod ('9' :: List.replicate 399 '9') = .error .out_of_range := by decide
  have := scan_digits_dot '9' (List.replicate 399 '9') h
  rw [hs] at this
  exact this

/-- Claim C9, amended: for every non-empty string `d` of decimal digits on which
`std::stod` raises no range error, the scan of `d` followed by a dot yields exactly
three tokens: a `NUMBER` token with the lexeme `d`, a `DOT` token with the lexeme `.`,
and the end-of-input token. -/
theorem number_then_trailing_dot (d : List Char) (hne : d ≠ [])
    (hd : ∀ x ∈ d, isDigit x = true) (hr : stod d ≠ .error .out_of_range) :
    ∃ v, stod d = .ok v ∧
      scan (d ++ ['.']) = .ok ([⟨.NUMBER, d, some (.number v), 1⟩, ⟨.DOT, ['.'], none, 1⟩,
        ⟨.EOF_LOX, [], none, 1⟩], []) := by
  cases d with
  | nil => exact absurd rfl hne
  | cons c tl =>
    have hs := scan_digits_dot c tl hd
    cases hst : stod (c :: tl) with
    | error e =>
      exfalso
      have h1 := lexNumber_ne_invalid c tl (hd c (List.mem_cons_self _ _))
      have htake : (c :: tl).take (1 + tl.length) = c :: tl := by
        rw [Nat.add_comm, List.take_succ_cons, List.take_length]
      simp only [lexNumber, numberLength_digits tl
        (fun x hx => hd x (List.mem_cons_of_mem _ hx)), htake, hst] at h1
      cases e with
      | invalid_argument => exact h1 rfl
      | out_of_range => exact hr hst
    | ok v =>
      rw [hst] at hs
      exact ⟨v, rfl, hs⟩

theorem number_then_trailing_dot_witness :
    "123".toList ≠ [] ∧ (∀ x ∈ "123".toList, isDigit x = true) ∧
    stod "123".toList ≠ .error .out_of_range ∧
    ∃ v, stod "123".toList = .ok v ∧
      scan ("123".toList ++ ['.']) = .ok ([⟨.NUMBER, "123".toList, some (.number v), 1⟩,
        ⟨.DOT, ['.'], none, 1⟩, ⟨.EOF_LOX, [], none, 1⟩], []) :=
  ⟨by decide, by decide, by decide,
    number_then_trailing_dot "123".toList (by decide) (by decide) (by decide)⟩

/-! ## Independence of the offset -/

theorem keywords_all_alpha : ∀ kv ∈ keywords, ∀ x ∈ kv.1, isAlpha x = true := by decide

theorem keywordsFind_none_of_not_alpha (text : List Char) (x : Char) (hx : x ∈ text)
    (ha : isAlpha x = false) : keywordsFind text = none := by
  cases hk : keywordsFind text with
  | none => rfl
  | some k =>
    have := keywords_all_alpha _ (keywordsFind_mem text k hk) x hx
    rw [ha] at this
    cases this

/-- The lookup of `scanIdentifier` reads the same text at every offset but `0`. -/
theorem lexIdentifier_shift (i j : Nat) (c : Char) (tl : List Char) (hi : 0 < i) (hj : 0 < j) :
    lexIdentifier i c tl = lexIdentifier j c tl := by
  have hsplit := List.takeWhile_append_dropWhile isAlphaNumeric tl
  simp only [lexIdentifier]
  generalize tl.takeWhile isAlphaNumeric = run at hsplit ⊢
  cases hd : tl.dropWhile isAlphaNumeric with
  | nil =>
    rw [hd, List.append_nil] at hsplit
    subst hsplit
    have e : ∀ k, (c :: run).take (k + (1 + run.length)) = c :: run := by
      intro k
      apply List.take_of_length_le
      simp only [List.length_cons]; omega
    rw [e i, e j]
  | cons d more =>
    have hnd := dropWhile_head_not _ _ _ _ hd
    have hna : isAlpha d = false := by
      simp only [isAlphaNumeric, Bool.or_eq_false_iff] at hnd
      exact hnd.1
    rw [hd] at hsplit
    subst hsplit
    have e : ∀ k, 0 < k → d ∈ (c :: (run ++ d :: more)).take (k + (1 + run.length)) := by
      intro k hk
      obtain ⟨k', rfl⟩ : ∃ k', k = k' + 1 := ⟨k - 1, by omega⟩
      have e1 : k' + 1 + (1 + run.length) = (c :: run).length + (k' + 1) := by
        simp only [List.length_cons]; omega
      rw [e1, ← List.cons_append, List.take_append, List.take_succ_cons]
      exact List.mem_append_right _ (List.mem_cons_self _ _)
    rw [keywordsFind_none_of_not_alpha _ d (e i hi) hna,
      keywordsFind_none_of_not_alpha _ d (e j hj) hna]

theorem lexOne_shift (i j : Nat) (c : Char) (tl : List Char) (hi : 0 < i) (hj : 0 < j) :
    lexOne i c tl = lexOne j c tl := by
  unfold lexOne
  rw [lexIdentifier_shift i j c tl hi hj]

theorem lexAll_shift : ∀ (n i j line : Nat) (rest : List Char), 0 < i → 0 < j →
    lexAll n i line rest = lexAll n j line rest := by
  intro n
  induction n with
  | zero => intro i j line rest _ _; rfl
  | succ n ih =>
    intro i j line rest hi hj
    cases rest with
    | nil => rfl
    | cons c tl =>
      simp only [lexAll, lexOne_shift i j c tl hi hj]
      cases lexOne j c tl with
      | error e => rfl
      | ok st =>
        simp only
        rw [ih (i + st.consumed) (j + st.consumed) _ _ (by omega) (by omega)]

theorem lexAll_fuel : ∀ (n m i line : Nat) (rest : List Char), rest.length ≤ n →
    rest.length ≤ m → lexAll n i line rest = lexAll m i line rest := by
  intro n
  induction n with
  | zero =>
    intro m i line rest hn _
    have : rest = [] := List.length_eq_zero.mp (by omega)
    subst this
    rw [lexAll_nil, lexAll_nil]
  | succ n ih =>
    intro m i line rest hn hm
    cases rest with
    | nil => rw [lexAll_nil, lexAll_nil]
    | cons c tl =>
      cases m with
      | zero => simp at hm
      | succ m =>
        simp only [List.length_cons, Nat.add_le_add_iff_right] at hn hm
        simp only [lexAll]
        cases lexOne i c tl with
        | error e => rfl
        | ok st =>
          simp only
          have hlen : (tl.drop (st.consumed - 1)).length ≤ tl.length := by
            rw [List.length_drop]; omega
          rw [ih m _ _ _ (by omega) (by omega)]

/-- Claim C10: for every comment body `b` without a newline and every text `rest`, the
scan of `//` followed by `b`, a newline and `rest` has the same outcome as the scan of
the newline followed by `rest`: the same tokens (kinds, lexemes, literals and lines, in
the same order) and the same calls of the error handler. -/
theorem line_comment_is_discarded (b rest : List Char) (hb : '\n' ∉ b) :
    scan ('/' :: '/' :: b ++ '\n' :: rest) = scan ('\n' :: rest) := by
  have hcom : ∀ i, lexOne i '/' ('/' :: (b ++ '\n' :: rest)) = .ok ⟨2 + b.length, 0, .nothing⟩ := by
    intro i
    have h1 : (b ++ '\n' :: rest).takeWhile (fun c => decide (c ≠ '\n')) = b := by
      rw [List.takeWhile_append_of_pos]
      · simp [List.takeWhile_cons]
      · intro x hx
        simp only [ne_eq, decide_eq_true_eq]
        rintro rfl
        exact hb hx
    have h2 : lexOne i '/' ('/' :: (b ++ '\n' :: rest)) =
        .ok ⟨2 + ((b ++ '\n' :: rest).takeWhile (fun c => decide (c ≠ '\n'))).length, 0,
          .nothing⟩ := by
      simp [lexOne]
    rw [h2, h1]
  have hnl : ∀ i, lexOne i '\n' rest = .ok ⟨1, 1, .nothing⟩ := by
    intro i; simp [lexOne]
  have e1 : ('/' :: (b ++ '\n' :: rest)).drop (2 + b.length - 1) = '\n' :: rest := by
    have : 2 + b.length - 1 = b.length + 1 := by omega
    rw [this, List.drop_succ_cons, List.drop_left]
  rw [List.cons_append, List.cons_append, scan_eq, scan_eq]
  simp only [List.length_cons, List.length_append, lexAll, hcom, hnl, e1, Nat.sub_self,
    List.drop_zero, Step.tokens, Step.errors, List.nil_append, Nat.add_zero, Nat.zero_add]
  rw [lexAll_shift _ (2 + b.length + 1) 1 _ _ (by omega) (by omega),
    lexAll_fuel _ rest.length _ _ _ (by omega) (le_refl _)]
  cases lexAll rest.length 1 (1 + 1) rest with
  | error e => rfl
  | ok r => rfl

theorem line_comment_is_discarded_witness :
    '\n' ∉ " hello".toList ∧
    scan ('/' :: '/' :: " hello".toList ++ '\n' :: "42".toList) = .ok
      ([⟨.NUMBER, "42".toList, some (.number ⟨21, 1⟩), 2⟩, ⟨.EOF_LOX, [], none, 2⟩], []) ∧
    scan ('/' :: '/' :: " hello".toList ++ '\n' :: "42".toList) = scan ('\n' :: "42".toList) :=
  ⟨by decide, by decide, line_comment_is_discarded " hello".toList "42".toList (by decide)⟩

/-! ## The fuel is enough -/

/-- With the fuel the scanner hands out, a character loop ends because its condition
fails, not because the fuel runs out. -/
theorem whileLoop_advance_exit (p : Char → Bool) (cond : Scanner → Bool)
    (hc : ∀ s, cond s = (!s.isAtEnd && p s.peek)) (s : Scanner) :
    cond (whileLoop cond (fun s => s.advance.2) s.fuel s) = false := by
  rw [whileLoop_advance p cond hc _ _ (le_refl _), hc, Scanner.isAtEnd_eq, Scanner.peek_eq]
  simp only
  rw [← List.drop_drop, drop_takeWhile_length]
  cases hd : (s.source.drop s.current).dropWhile p with
  | nil => simp
  | cons d more => simp [dropWhile_head_not p _ d more hd]

/-- With the fuel the scanner hands out, the loop of `scanString` ends because its
condition fails. -/
theorem whileLoop_string_exit (cond : Scanner → Bool) (body : Scanner → Scanner)
    (hc : ∀ s, cond s = (!s.isAtEnd && decide (s.peek ≠ '\"')))
    (hb : ∀ s, body s =
      { s with current := s.current + 1, line := s.line + if s.peek = '\n' then 1 else 0 })
    (s : Scanner) : cond (whileLoop cond body s.fuel s) = false := by
  rw [whileLoop_string cond body hc hb _ _ (le_refl _), hc, Scanner.isAtEnd_eq, Scanner.peek_eq]
  simp only
  rw [← List.drop_drop, drop_takeWhile_length]
  cases hd : (s.source.drop s.current).dropWhile (fun c => decide (c ≠ '\"')) with
  | nil => simp
  | cons d more =>
    have := dropWhile_head_not _ _ d more hd
    simp only [ne_eq, decide_eq_false_iff_not, not_not] at this
    simp [this]

/-! ## Literals -/

/-- The literal of the token of a step fits its kind: `NUMBER` carries a number,
`STRING` a text, every other kind nothing. -/
theorem lexOne_literal (i : Nat) (c : Char) (tl : List Char) (st : Step) (line : Nat)
    (h : lexOne i c tl = .ok st) : ∀ t ∈ st.tokens line (c :: tl),
      (t.type = .NUMBER ∧ ∃ d, t.literal = some (.number d)) ∨
      (t.type = .STRING ∧ ∃ s, t.literal = some (.text s)) ∨
      (t.type ≠ .NUMBER ∧ t.type ≠ .STRING ∧ t.literal = none) := by
  revert h
  refine lexOne_cases
    (fun r => r = .ok st → ∀ t ∈ st.tokens line (c :: tl),
      (t.type = .NUMBER ∧ ∃ d, t.literal = some (.number d)) ∨
      (t.type = .STRING ∧ ∃ s, t.literal = some (.text s)) ∨
      (t.type ≠ .NUMBER ∧ t.type ≠ .STRING ∧ t.literal = none))
    i c tl ?_ ?_ ?_ ?_ ?_ ?_ ?_ ?_ ?_
  · intro ty hty h t ht; cases h
    simp only [Step.tokens, List.mem_singleton] at ht
    subst ht
    right; right
    refine ⟨?_, ?_, rfl⟩ <;> (intro he; simp only at he; subst he; revert hty; simp [oneCharTokens])
  · intro ty hty _ h t ht; cases h
    simp only [Step.tokens, List.mem_singleton] at ht
    subst ht
    right; right
    refine ⟨?_, ?_, rfl⟩ <;> (intro he; simp only at he; subst he; revert hty; simp [twoCharTokens])
  · intro _ _ h t ht; cases h; simp [Step.tokens] at ht
  · intro _ h t ht; cases h; simp [Step.tokens] at ht
  · intro _ h t ht; cases h; simp [Step.tokens] at ht
  · intro _ h t ht; cases h
    simp only [lexString] at ht
    split_ifs at ht
    · simp [Step.tokens] at ht
    · simp only [Step.tokens, List.mem_singleton] at ht
      subst ht
      right; left
      exact ⟨rfl, _, rfl⟩
  · intro _ h t ht
    unfold lexNumber at h
    cases hs : stod ((c :: tl).take (1 + numberLength tl)) with
    | error e => rw [hs] at h; cases h
    | ok d =>
      rw [hs] at h; cases h
      simp only [Step.tokens, List.mem_singleton] at ht
      subst ht
      left
      exact ⟨rfl, _, rfl⟩
  · intro _ h t ht; cases h
    simp only [lexIdentifier, Step.tokens, List.mem_singleton] at ht
    subst ht
    right; right
    simp only
    cases hk : keywordsFind ((c :: tl).take (i + (1 + (tl.takeWhile isAlphaNumeric).length))) with
    | none => simp
    | some k =>
      have := keywordsFind_mem _ _ hk
      simp only
      refine ⟨?_, ?_, trivial⟩ <;> (intro he; subst he; revert this; simp [keywords])
  · intro _ _ _ _ h t ht; cases h; simp [Step.tokens] at ht

/-- Claim C11: whenever `scanTokens` returns, every token of the sequence carries a
literal if and only if its kind is `NUMBER` or `STRING`; the literal of a `NUMBER` token
is the number variant and the literal of a `STRING` token is the text variant, and a
token of any other kind (punctuation, operators, `IDENTIFIER`, keywords, end-of-input)
carries no literal. -/
theorem literal_only_on_number_and_string (src : List Char) (toks : List Token)
    (errs : List (Nat × String)) (h : scan src = .ok (toks, errs)) :
    ∀ t ∈ toks,
      (t.literal.isSome = true ↔ t.type = .NUMBER ∨ t.type = .STRING) ∧
      (t.type = .NUMBER → ∃ d, t.literal = some (.number d)) ∧
      (t.type = .STRING → ∃ s, t.literal = some (.text s)) ∧
      (t.type ≠ .NUMBER → t.type ≠ .STRING → t.literal = none) := by
  have key : ∀ t : Token,
      ((t.type = .NUMBER ∧ ∃ d, t.literal = some (.number d)) ∨
      (t.type = .STRING ∧ ∃ s, t.literal = some (.text s)) ∨
      (t.type ≠ .NUMBER ∧ t.type ≠ .STRING ∧ t.literal = none)) →
      (t.literal.isSome = true ↔ t.type = .NUMBER ∨ t.type = .STRING) ∧
      (t.type = .NUMBER → ∃ d, t.literal = some (.number d)) ∧
      (t.type = .STRING → ∃ s, t.literal = some (.text s)) ∧
      (t.type ≠ .NUMBER → t.type ≠ .STRING → t.literal = none) := by
    intro t ht
    rcases ht with ⟨h1, d, h2⟩ | ⟨h1, s, h2⟩ | ⟨h1, h2, h3⟩
    · refine ⟨by simp [h1, h2], fun _ => ⟨d, h2⟩, fun h => ?_, fun h => absurd h1 h⟩
      rw [h1] at h; cases h
    · refine ⟨by simp [h1, h2], fun h => ?_, fun _ => ⟨s, h2⟩, fun _ h => absurd h1 h⟩
      rw [h1] at h; cases h
    · exact ⟨by simp [h1, h2, h3], fun h => absurd h h1, fun h => absurd h h2, fun _ _ => h3⟩
  rw [scan_eq] at h
  cases hr : lexAll src.length 0 1 src with
  | error e => rw [hr] at h; cases h
  | ok r =>
    obtain ⟨ts, es, l⟩ := r
    rw [hr] at h
    simp only [Except.ok.injEq, Prod.mk.injEq] at h
    intro t ht
    rw [← h.1] at ht
    apply key
    rcases List.mem_append.mp ht with ht | ht
    · exact lexAll_tokens_forall _
        (fun i c tl st line hl => lexOne_literal i c tl st line hl) _ _ _ _ _ _ _ hr t ht
    · simp only [List.mem_singleton] at ht
      subst ht
      right; right
      exact ⟨fun he => TokenType.noConfusion he, fun he => TokenType.noConfusion he, rfl⟩

theorem literal_only_on_number_and_string_witness :
    scan "x = \"a\" + 1.5".toList = .ok
      ([⟨.IDENTIFIER, "x".toList, none, 1⟩, ⟨.EQUAL, "=".toList, none, 1⟩,
        ⟨.STRING, "\"a\"".toList, some (.text "\"a\"".toList), 1⟩,
        ⟨.PLUS, "+".toList, none, 1⟩,
        ⟨.NUMBER, "1.5".toList, some (.number ⟨3, -1⟩), 1⟩,
        ⟨.EOF_LOX, [], none, 1⟩], []) ∧
    ∀ t ∈ ([⟨.IDENTIFIER, "x".toList, none, 1⟩, ⟨.EQUAL, "=".toList, none, 1⟩,
        ⟨.STRING, "\"a\"".toList, some (.text "\"a\"".toList), 1⟩,
        ⟨.PLUS, "+".toList, none, 1⟩,
        ⟨.NUMBER, "1.5".toList, some (.number ⟨3, -1⟩), 1⟩,
        ⟨.EOF_LOX, [], none, 1⟩] : List Token),
      (t.literal.isSome = true ↔ t.type = .NUMBER ∨ t.type = .STRING) ∧
      (t.type = .NUMBER → ∃ d, t.literal = some (.number d)) ∧
      (t.type = .STRING → ∃ s, t.literal = some (.text s)) ∧
      (t.type ≠ .NUMBER → t.type ≠ .STRING → t.literal = none) :=
  ⟨by decide, literal_only_on_number_and_string "x = \"a\" + 1.5".toList _ [] (by decide)⟩

/-! ## Lexemes and gaps -/

theorem lexOne_lexeme_ne_nil (i : Nat) (c : Char) (tl : List Char) (st : Step) (line : Nat)
    (h : lexOne i c tl = .ok st) : ∀ t ∈ st.tokens line (c :: tl), t.lexeme ≠ [] := by
  intro t ht
  have hc := lexOne_consumed i c tl st h
  cases he : st.emit with
  | nothing => simp [Step.tokens, he] at ht
  | error msg => simp [Step.tokens, he] at ht
  | token ty lit =>
    simp only [Step.tokens, he, List.mem_singleton] at ht
    subst ht
    obtain ⟨k, hk⟩ : ∃ k, st.consumed = k + 1 := ⟨st.consumed - 1, by omega⟩
    simp [hk]

theorem lexAll_weave : ∀ (n i line : Nat) (rest : List Char) (ts : List Token)
    (es : List (Nat × String)) (l : Nat), rest.length ≤ n →
    lexAll n i line rest = .ok (ts, es, l) →
    ∃ (g0 : List Char) (gaps : List (List Char)), gaps.length = ts.length ∧
      rest = g0 ++ (List.zipWith (fun x g => x ++ g) (ts.map Token.lexeme) gaps).flatten := by
  intro n
  induction n with
  | zero =>
    intro i line rest ts es l hn h
    have : rest = [] := List.length_eq_zero.mp (by omega)
    subst this
    simp only [lexAll, Except.ok.injEq, Prod.mk.injEq] at h
    rw [← h.1]
    exact ⟨[], [], rfl, rfl⟩
  | succ n ih =>
    intro i line rest ts es l hn h
    cases rest with
    | nil =>
      simp only [lexAll, Except.ok.injEq, Prod.mk.injEq] at h
      rw [← h.1]
      exact ⟨[], [], rfl, rfl⟩
    | cons c tl =>
      simp only [lexAll] at h
      cases hl : lexOne i c tl with
      | error e => rw [hl] at h; cases h
      | ok st =>
        rw [hl] at h
        simp only at h
        have hc := lexOne_consumed _ _ _ _ hl
        have hsplit : c :: tl = (c :: tl).take st.consumed ++ tl.drop (st.consumed - 1) := by
          obtain ⟨k, hk⟩ : ∃ k, st.consumed = k + 1 := ⟨st.consumed - 1, by omega⟩
          rw [hk, List.take_succ_cons, Nat.add_sub_cancel, List.cons_append,
            List.take_append_drop]
        cases hr : lexAll n (i + st.consumed) (line + st.newlines)
            (tl.drop (st.consumed - 1)) with
        | error e => rw [hr] at h; cases h
        | ok r =>
          obtain ⟨ts', es', l'⟩ := r
          rw [hr] at h
          simp only [Except.ok.injEq, Prod.mk.injEq] at h
          have hlen : (tl.drop (st.consumed - 1)).length ≤ n := by
            rw [List.length_drop]
            simp only [List.length_cons] at hn
            omega
          obtain ⟨g0, gaps, hg, hw⟩ := ih _ _ _ _ _ _ hlen hr
          rw [← h.1]
          cases he : st.emit with
          | nothing =>
            refine ⟨(c :: tl).take st.consumed ++ g0, gaps, by simp [Step.tokens, he, hg], ?_⟩
            simp only [Step.tokens, he, List.nil_append, List.append_assoc]
            rw [← hw]; exact hsplit
          | error msg =>
            refine ⟨(c :: tl).take st.consumed ++ g0, gaps, by simp [Step.tokens, he, hg], ?_⟩
            simp only [Step.tokens, he, List.nil_append, List.append_assoc]
            rw [← hw]; exact hsplit
          | token ty lit =>
            refine ⟨[], g0 :: gaps, by simp [Step.tokens, he, hg], ?_⟩
            simp only [Step.tokens, he, List.cons_append, List.nil_append, List.map_cons,
              List.zipWith_cons_cons, List.flatten_cons, List.append_assoc]
            rw [← hw]; exact hsplit

/-- Claim C12: whenever `scanTokens` returns, the lexemes of the tokens before the
end-of-input token are non-empty, and the source is `g0 ++ l1 ++ g1 ++ ... ++ ln ++ gn`
for the lexemes `l1 .. ln` in token order and some gaps `g0 .. gn`: the lexemes are
contiguous spans of the source that do not overlap and occur in token order. -/
theorem lexemes_partition_source (src : List Char) (toks : List Token)
    (errs : List (Nat × String)) (h : scan src = .ok (toks, errs)) :
    (∀ t ∈ toks.dropLast, t.lexeme ≠ []) ∧
    ∃ (g0 : List Char) (gaps : List (List Char)), gaps.length = toks.dropLast.length ∧
      src = g0 ++
        (List.zipWith (fun x g => x ++ g) (toks.dropLast.map Token.lexeme) gaps).flatten := by
  rw [scan_eq] at h
  cases hr : lexAll src.length 0 1 src with
  | error e => rw [hr] at h; cases h
  | ok r =>
    obtain ⟨ts, es, l⟩ := r
    rw [hr] at h
    simp only [Except.ok.injEq, Prod.mk.injEq] at h
    rw [← h.1, List.dropLast_concat]
    exact ⟨lexAll_tokens_forall _
        (fun i c tl st line hl => lexOne_lexeme_ne_nil i c tl st line hl) _ _ _ _ _ _ _ hr,
      lexAll_weave _ _ _ _ _ _ _ (le_refl _) hr⟩

theorem lexemes_partition_source_witness :
    scan " a+ b".toList = .ok
      ([⟨.IDENTIFIER, "a".toList, none, 1⟩, ⟨.PLUS, "+".toList, none, 1⟩,
        ⟨.IDENTIFIER, "b".toList, none, 1⟩, ⟨.EOF_LOX, [], none, 1⟩], []) ∧
    (∀ t ∈ ([⟨.IDENTIFIER, "a".toList, none, 1⟩, ⟨.PLUS, "+".toList, none, 1⟩,
        ⟨.IDENTIFIER, "b".toList, none, 1⟩, ⟨.EOF_LOX, [], none, 1⟩] : List Token).dropLast,
      t.lexeme ≠ []) ∧
    ∃ (g0 : List Char) (gaps : List (List Char)),
      gaps.length = ([⟨.IDENTIFIER, "a".toList, none, 1⟩, ⟨.PLUS, "+".toList, none, 1⟩,
        ⟨.IDENTIFIER, "b".toList, none, 1⟩,
        ⟨.EOF_LOX, [], none, 1⟩] : List Token).dropLast.length ∧
      " a+ b".toList = g0 ++
        (List.zipWith (fun x g => x ++ g)
          (([⟨.IDENTIFIER, "a".toList, none, 1⟩, ⟨.PLUS, "+".toList, none, 1⟩,
            ⟨.IDENTIFIER, "b".toList, none, 1⟩,
            ⟨.EOF_LOX, [], none, 1⟩] : List Token).dropLast.map Token.lexeme) gaps).flatten :=
  ⟨by decide, lexemes_partition_source " a+ b".toList _ [] (by decide)⟩

/-! ## Progress of the main loop -/

namespace Scanner

/-- A call of `scanToken` by the main loop is a step of the list view. -/
theorem scanToken_step (s s' : Scanner) (hlt : s.current < s.source.length)
    (h : scanToken { s with start := s.current } = .ok s') :
    ∃ c tl st, s.source.drop s.current = c :: tl ∧ lexOne s.current c tl = .ok st ∧
      s' = st.apply { s with start := s.current } := by
  cases hd : s.source.drop s.current with
  | nil =>
    have := List.drop_eq_nil_iff.mp hd
    omega
  | cons c tl =>
    have he := scanToken_eq { s with start := s.current } c tl hd rfl
    rw [he] at h
    simp only at h
    cases hl : lexOne s.current c tl with
    | error e => rw [hl] at h; cases h
    | ok st =>
      rw [hl] at h
      simp only [Except.ok.injEq] at h
      exact ⟨c, tl, st, rfl, hl, h.symm⟩

/-- A call of `scanToken` by the main loop moves `current` forward, not past the end of
the source, and does not lower `line`. -/
theorem scanToken_progress (s s' : Scanner) (hlt : s.current < s.source.length)
    (h : scanToken { s with start := s.current } = .ok s') :
    s.current < s'.current ∧ s'.current ≤ s.source.length ∧ s'.source = s.source ∧
      s'.start = s.current ∧ s.line ≤ s'.line := by
  obtain ⟨c, tl, st, hd, hl, rfl⟩ := scanToken_step s s' hlt h
  obtain ⟨h1, h2, h3, _, _⟩ := apply_fields st { s with start := s.current } c tl hd rfl
  have hc := lexOne_consumed _ _ _ _ hl
  have hlen : tl.length + 1 = s.source.length - s.current := by
    have := congrArg List.length hd
    simpa using this.symm
  have hstart : (st.apply { s with start := s.current }).start = s.current := by
    obtain ⟨n, k, e⟩ := st
    cases e <;> rfl
  simp only at h1 h2 h3
  refine ⟨by omega, by omega, h1, hstart, by omega⟩

/-- Every state of the main loop lies within the source. -/
theorem scanLoop_bounds : ∀ (n : Nat) (s s' : Scanner), s.current ≤ s.source.length →
    scanLoop n s = .ok s' →
    s'.source = s.source ∧ s.current ≤ s'.current ∧ s'.current ≤ s.source.length ∧
      s.line ≤ s'.line ∧ (s'.start = s.start ∨ s'.start ≤ s'.current) := by
  intro n
  induction n with
  | zero =>
    intro s s' hle h
    simp only [scanLoop, Except.ok.injEq] at h
    subst h
    exact ⟨rfl, le_refl _, hle, le_refl _, Or.inl rfl⟩
  | succ n ih =>
    intro s s' hle h
    simp only [scanLoop] at h
    by_cases hend : s.isAtEnd = true
    · simp only [hend, Bool.not_true, Bool.false_eq_true, if_false, Except.ok.injEq] at h
      subst h
      exact ⟨rfl, le_refl _, hle, le_refl _, Or.inl rfl⟩
    · have hlt : s.current < s.source.length := by
        simp only [isAtEnd, decide_eq_true_eq] at hend
        omega
      simp only [Bool.not_eq_true] at hend
      simp only [hend, Bool.not_false, if_true] at h
      cases ht : scanToken { s with start := s.current } with
      | error e => rw [ht] at h; cases h
      | ok s1 =>
        rw [ht] at h
        simp only at h
        obtain ⟨p1, p2, p3, p4, p5⟩ := scanToken_progress s s1 hlt ht
        obtain ⟨q1, q2, q3, q4, q5⟩ := ih s1 s' (by rw [p3]; exact p2) h
        refine ⟨by rw [q1, p3], by omega, by rw [← p3]; exact q3, by omega, Or.inr ?_⟩
        rcases q5 with q5 | q5
        · rw [q5, p4]; omega
        · exact q5

end Scanner

theorem lexAll_length_le : ∀ (n i line : Nat) (rest : List Char) (ts : List Token)
    (es : List (Nat × String)) (l : Nat),
    lexAll n i line rest = .ok (ts, es, l) → ts.length ≤ rest.length := by
  intro n
  induction n with
  | zero =>
    intro i line rest ts es l h
    simp only [lexAll, Except.ok.injEq, Prod.mk.injEq] at h
    rw [← h.1]; exact Nat.zero_le _
  | succ n ih =>
    intro i line rest ts es l h
    cases rest with
    | nil =>
      simp only [lexAll, Except.ok.injEq, Prod.mk.injEq] at h
      rw [← h.1]; exact Nat.zero_le _
    | cons c tl =>
      simp only [lexAll] at h
      cases hl : lexOne i c tl with
      | error e => rw [hl] at h; cases h
      | ok st =>
        rw [hl] at h
        simp only at h
        have hc := lexOne_consumed _ _ _ _ hl
        cases hr : lexAll n (i + st.consumed) (line + st.newlines)
            (tl.drop (st.consumed - 1)) with
        | error e => rw [hr] at h; cases h
        | ok r =>
          obtain ⟨ts', es', l'⟩ := r
          rw [hr] at h
          simp only [Except.ok.injEq, Prod.mk.injEq] at h
          have h1 := ih _ _ _ _ _ _ hr
          have h2 : (st.tokens line (c :: tl)).length ≤ 1 := by
            cases he : st.emit <;> simp [Step.tokens, he]
          rw [← h.1, List.length_append, List.length_cons]
          rw [List.length_drop] at h1
          omega

/-- Claim C13: `scanTokens` terminates for every source text.  Every call of `scanToken`
made by the main loop, when it returns, has moved `current` forward and not past the end
of the source; the main loop, run for at most `length(source)` iterations, ends at the
end of the source with its condition false; each of the four inner loops, run for at most
`length(source) - current` iterations, ends with its condition false; and a sequence
returned has at most `length(source) + 1` tokens. -/
theorem scanTokens_terminates (src : List Char) :
    (∀ s s' : Scanner, s.current < s.source.length →
      Scanner.scanToken { s with start := s.current } = .ok s' →
      s.current < s'.current ∧ s'.current ≤ s.source.length) ∧
    (∀ s' : Scanner, Scanner.scanLoop src.length (Scanner.new src) = .ok s' →
      s'.isAtEnd = true ∧ s'.current = src.length) ∧
    (∀ s : Scanner, ∀ L ∈ Scanner.loops, L.1 (whileLoop L.1 L.2 s.fuel s) = false) ∧
    (∀ toks errs, scan src = .ok (toks, errs) → toks.length ≤ src.length + 1) := by
  refine ⟨?_, ?_, ?_, ?_⟩
  · intro s s' hlt h
    have := Scanner.scanToken_progress s s' hlt h
    exact ⟨this.1, this.2.1⟩
  · intro s' h
    have hb := Scanner.scanLoop_bounds src.length (Scanner.new src) s' (Nat.zero_le _) h
    have hl := Scanner.scanLoop_lexAll (Scanner.new src).fuel (Scanner.new src) (le_refl _)
    have hf : (Scanner.new src).fuel = src.length := rfl
    rw [hf] at hl
    cases hr : lexAll src.length (Scanner.new src).current (Scanner.new src).line
        ((Scanner.new src).source.drop (Scanner.new src).current) with
    | error e => rw [hr] at hl; rw [h] at hl; cases hl
    | ok r =>
      obtain ⟨ts, es, l⟩ := r
      rw [hr] at hl
      obtain ⟨s'', e1, _, _, _, _, e6⟩ := hl
      rw [h] at e1
      simp only [Except.ok.injEq] at e1
      subst e1
      refine ⟨e6, ?_⟩
      have h3 := hb.2.2.1
      simp only [Scanner.isAtEnd, decide_eq_true_eq, hb.1] at e6
      exact Nat.le_antisymm h3 e6
  · intro s L hL
    simp only [Scanner.loops, List.mem_cons, List.mem_singleton, List.not_mem_nil,
      or_false] at hL
    rcases hL with rfl | rfl | rfl | rfl
    · exact whileLoop_advance_exit isDigit _ (Scanner.cond_of_nul isDigit isDigit_nul) s
    · exact whileLoop_advance_exit isAlphaNumeric _
        (Scanner.cond_of_nul isAlphaNumeric isAlphaNumeric_nul) s
    · exact whileLoop_advance_exit (fun c => decide (c ≠ '\n')) _
        (fun s => by simp [Bool.and_comm]) s
    · exact whileLoop_string_exit _ _ (fun s => by simp [Bool.and_comm])
        (fun s => by by_cases hp : s.peek = '\n' <;> simp [Scanner.advance, hp]) s
  · intro toks errs h
    rw [scan_eq] at h
    cases hr : lexAll src.length 0 1 src with
    | error e => rw [hr] at h; cases h
    | ok r =>
      obtain ⟨ts, es, l⟩ := r
      rw [hr] at h
      simp only [Except.ok.injEq, Prod.mk.injEq] at h
      have := lexAll_length_le _ _ _ _ _ _ _ hr
      rw [← h.1, List.length_append, List.length_singleton]
      omega

theorem scanTokens_terminates_witness :
    scan "1+2".toList = .ok
      ([⟨.NUMBER, "1".toList, some (.number ⟨1, 0⟩), 1⟩, ⟨.PLUS, "+".toList, none, 1⟩,
        ⟨.NUMBER, "2".toList, some (.number ⟨1, 1⟩), 1⟩, ⟨.EOF_LOX, [], none, 1⟩], []) ∧
    ([⟨.NUMBER, "1".toList, some (.number ⟨1, 0⟩), 1⟩, ⟨.PLUS, "+".toList, none, 1⟩,
        ⟨.NUMBER, "2".toList, some (.number ⟨1, 1⟩), 1⟩,
        ⟨.EOF_LOX, [], none, 1⟩] : List Token).length ≤ "1+2".toList.length + 1 :=
  ⟨by decide, (scanTokens_terminates "1+2".toList).2.2.2 _ [] (by decide)⟩

/-! ## Printing tokens -/

/-- Claim C14: the table `TokenNames` has 39 entries; for every token kind the index
`int(type)` is in bounds and the entry there is the name of the enumerator; and for every
token `toString` is the kind name, a space, the lexeme, a space and the literal text,
where the literal text is empty for a token without literal, the stored text for a
token with a text literal, and `std::to_string` of the stored number for a token with a
number literal. -/
theorem toString_prints_kind_lexeme_literal (to_string : Double → List Char) :
    TokenNames.length = 39 ∧
    (∀ type : TokenType, type.toInt < TokenNames.length ∧
      TokenNames[type.toInt]? = some (enumeratorName type)) ∧
    (∀ t : Token, ∃ lit : List Char,
      t.toString to_string =
        (enumeratorName t.type).toList ++ [' '] ++ t.lexeme ++ [' '] ++ lit ∧
      (t.literal = none → lit = []) ∧
      (∀ s, t.literal = some (.text s) → lit = s) ∧
      (∀ d, t.literal = some (.number d) → lit = to_string d)) := by
  have hnames : ∀ type : TokenType, type.toInt < TokenNames.length ∧
      TokenNames[type.toInt]? = some (enumeratorName type) := by
    intro type
    cases type <;> exact ⟨by decide, rfl⟩
  refine ⟨rfl, hnames, ?_⟩
  intro t
  refine ⟨t.getLiteral to_string, ?_, ?_, ?_, ?_⟩
  · have h := (hnames t.type).2
    simp only [Token.toString, List.getD_eq_getElem?_getD, h, Option.getD_some]
    rfl
  · intro h; simp [Token.getLiteral, h]
  · intro s h; simp [Token.getLiteral, h]
  · intro d h; simp [Token.getLiteral, h]

/-! ## Keywords -/

/-- Claim C15 (code bug): the source `for x` scans to `FOR`, `IDENTIFIER`, end-of-input,
but with a space in front the word `for` becomes an `IDENTIFIER`: the function
`scanIdentifier` looks up `source.substr(start, current)`, which is `for ` then. -/
theorem leading_space_changes_keyword :
    scan "for x".toList = .ok
      ([⟨.FOR, "for".toList, none, 1⟩, ⟨.IDENTIFIER, "x".toList, none, 1⟩,
        ⟨.EOF_LOX, [], none, 1⟩], []) ∧
    scan (' ' :: "for x".toList) = .ok
      ([⟨.IDENTIFIER, "for".toList, none, 1⟩, ⟨.IDENTIFIER, "x".toList, none, 1⟩,
        ⟨.EOF_LOX, [], none, 1⟩], []) := by
  decide

/-- The text `scanIdentifier` looks up is the lexeme, or it holds a character that is
not alphabetic. -/
theorem identifier_text (i : Nat) (c : Char) (tl : List Char) :
    (c :: tl).take (i + (1 + (tl.takeWhile isAlphaNumeric).length)) =
      c :: tl.takeWhile isAlphaNumeric ∨
    ∃ d ∈ (c :: tl).take (i + (1 + (tl.takeWhile isAlphaNumeric).length)),
      isAlpha d = false := by
  have hsplit := List.takeWhile_append_dropWhile isAlphaNumeric tl
  have htake := take_takeWhile_length isAlphaNumeric tl
  generalize tl.takeWhile isAlphaNumeric = run at hsplit htake ⊢
  cases hd : tl.dropWhile isAlphaNumeric with
  | nil =>
    left
    rw [hd, List.append_nil] at hsplit
    subst hsplit
    apply List.take_of_length_le
    simp only [List.length_cons]; omega
  | cons d more =>
    cases i with
    | zero =>
      left
      rw [Nat.zero_add, Nat.add_comm, List.take_succ_cons, htake]
    | succ k =>
      right
      have hnd := dropWhile_head_not _ _ _ _ hd
      have hna : isAlpha d = false := by
        simp only [isAlphaNumeric, Bool.or_eq_false_iff] at hnd
        exact hnd.1
      rw [hd] at hsplit
      subst hsplit
      refine ⟨d, ?_, hna⟩
      have e1 : k + 1 + (1 + run.length) = (c :: run).length + (k + 1) := by
        simp only [List.length_cons]; omega
      rw [e1, ← List.cons_append, List.take_append, List.take_succ_cons]
      exact List.mem_append_right _ (List.mem_cons_self _ _)

theorem oneCharTokens_not_keyword :
    ∀ p ∈ oneCharTokens, ∀ kv ∈ keywords, kv.2 ≠ p.2 := by decide

theorem twoCharTokens_not_keyword :
    ∀ p ∈ twoCharTokens, ∀ kv ∈ keywords, kv.2 ≠ p.2 := by decide

theorem keywords_kinds :
    ∀ kv ∈ keywords, kv.2 ≠ .STRING ∧ kv.2 ≠ .NUMBER ∧ kv.2 ≠ .IDENTIFIER ∧ kv.2 ≠ .EOF_LOX := by
  decide

/-- A token of a step that has a keyword kind has that keyword as lexeme. -/
theorem lexOne_keyword (i : Nat) (c : Char) (tl : List Char) (st : Step) (line : Nat)
    (h : lexOne i c tl = .ok st) : ∀ t ∈ st.tokens line (c :: tl),
      (∃ w, (w, t.type) ∈ keywords) → (t.lexeme, t.type) ∈ keywords := by
  revert h
  refine lexOne_cases
    (fun r => r = .ok st → ∀ t ∈ st.tokens line (c :: tl),
      (∃ w, (w, t.type) ∈ keywords) → (t.lexeme, t.type) ∈ keywords)
    i c tl ?_ ?_ ?_ ?_ ?_ ?_ ?_ ?_ ?_
  · intro ty hty h t ht; cases h
    simp only [Step.tokens, List.mem_singleton] at ht
    subst ht
    rintro ⟨w, hw⟩
    exact absurd rfl (oneCharTokens_not_keyword _ hty _ hw)
  · intro ty hty _ h t ht; cases h
    simp only [Step.tokens, List.mem_singleton] at ht
    subst ht
    rintro ⟨w, hw⟩
    exact absurd rfl (twoCharTokens_not_keyword _ hty _ hw)
  · intro _ _ h t ht; cases h; simp [Step.tokens] at ht
  · intro _ h t ht; cases h; simp [Step.tokens] at ht
  · intro _ h t ht; cases h; simp [Step.tokens] at ht
  · intro _ h t ht; cases h
    simp only [lexString] at ht
    split_ifs at ht
    · simp [Step.tokens] at ht
    · simp only [Step.tokens, List.mem_singleton] at ht
      subst ht
      rintro ⟨w, hw⟩
      exact absurd rfl (keywords_kinds _ hw).1
  · intro _ h t ht
    unfold lexNumber at h
    cases hs : stod ((c :: tl).take (1 + numberLength tl)) with
    | error e => rw [hs] at h; cases h
    | ok d =>
      rw [hs] at h; cases h
      simp only [Step.tokens, List.mem_singleton] at ht
      subst ht
      rintro ⟨w, hw⟩
      exact absurd rfl (keywords_kinds _ hw).2.1
  · intro _ h t ht; cases h
    simp only [lexIdentifier, Step.tokens, List.mem_singleton] at ht
    subst ht
    simp only
    have hlex : (c :: tl).take (1 + (tl.takeWhile isAlphaNumeric).length) =
        c :: tl.takeWhile isAlphaNumeric := by
      rw [Nat.add_comm, List.take_succ_cons, take_takeWhile_length]
    cases hk : keywordsFind ((c :: tl).take (i + (1 + (tl.takeWhile isAlphaNumeric).length))) with
    | none =>
      rintro ⟨w, hw⟩
      exact absurd rfl (keywords_kinds _ hw).2.2.1
    | some k =>
      intro _
      have hmem := keywordsFind_mem _ _ hk
      rcases identifier_text i c tl with he | ⟨d, hd, hna⟩
      · rw [hlex, ← he]; exact hmem
      · have := keywords_all_alpha _ hmem d hd
        rw [hna] at this
        cases this
  · intro _ _ _ _ h t ht; cases h; simp [Step.tokens] at ht

/-- Claim C17: whenever `scanTokens` returns, every token whose kind is one of the
sixteen keyword kinds has exactly the reserved word of that kind as lexeme; and the
sources `form` and `For` each scan to a single `IDENTIFIER` before the end-of-input
token. -/
theorem keyword_token_has_reserved_lexeme (src : List Char) (toks : List Token)
    (errs : List (Nat × String)) (h : scan src = .ok (toks, errs)) :
    (∀ t ∈ toks, (∃ w, (w, t.type) ∈ keywords) → (t.lexeme, t.type) ∈ keywords) ∧
    scan "form".toList =
      .ok ([⟨.IDENTIFIER, "form".toList, none, 1⟩, ⟨.EOF_LOX, [], none, 1⟩], []) ∧
    scan "For".toList =
      .ok ([⟨.IDENTIFIER, "For".toList, none, 1⟩, ⟨.EOF_LOX, [], none, 1⟩], []) := by
  refine ⟨?_, by decide, by decide⟩
  rw [scan_eq] at h
  cases hr : lexAll src.length 0 1 src with
  | error e => rw [hr] at h; cases h
  | ok r =>
    obtain ⟨ts, es, l⟩ := r
    rw [hr] at h
    simp only [Except.ok.injEq, Prod.mk.injEq] at h
    intro t ht
    rw [← h.1] at ht
    rcases List.mem_append.mp ht with ht | ht
    · exact lexAll_tokens_forall _
        (fun i c tl st line hl => lexOne_keyword i c tl st line hl) _ _ _ _ _ _ _ hr t ht
    · simp only [List.mem_singleton] at ht
      subst ht
      rintro ⟨w, hw⟩
      exact absurd rfl (keywords_kinds _ hw).2.2.2

theorem keyword_token_has_reserved_lexeme_witness :
    scan "while (true) x".toList = .ok
      ([⟨.WHILE, "while".toList, none, 1⟩, ⟨.LEFT_PAREN, "(".toList, none, 1⟩,
        ⟨.IDENTIFIER, "true".toList, none, 1⟩, ⟨.RIGHT_PAREN, ")".toList, none, 1⟩,
        ⟨.IDENTIFIER, "x".toList, none, 1⟩, ⟨.EOF_LOX, [], none, 1⟩], []) ∧
    (∀ t ∈ ([⟨.WHILE, "while".toList, none, 1⟩, ⟨.LEFT_PAREN, "(".toList, none, 1⟩,
        ⟨.IDENTIFIER, "true".toList, none, 1⟩, ⟨.RIGHT_PAREN, ")".toList, none, 1⟩,
        ⟨.IDENTIFIER, "x".toList, none, 1⟩, ⟨.EOF_LOX, [], none, 1⟩] : List Token),
      (∃ w, (w, t.type) ∈ keywords) → (t.lexeme, t.type) ∈ keywords) :=
  ⟨by decide,
    (keyword_token_has_reserved_lexeme "while (true) x".toList _ [] (by decide)).1⟩

/-! ## The lexical grammar -/

theorem oneCharTokens_grammar : ∀ p ∈ oneCharTokens, lexemeGrammar p.2 [p.1] := by
  intro p hp
  simp only [oneCharTokens, List.mem_cons, List.mem_singleton, List.not_mem_nil, or_false] at hp
  rcases hp with h | h | h | h | h | h | h | h | h | h | h | h | h | h | h <;> subst h <;> rfl

theorem twoCharTokens_grammar : ∀ p ∈ twoCharTokens, lexemeGrammar p.2 [p.1, '='] := by
  intro p hp
  simp only [twoCharTokens, List.mem_cons, List.mem_singleton, List.not_mem_nil, or_false] at hp
  rcases hp with h | h | h | h <;> subst h <;> rfl

theorem keywords_grammar (lx : List Char) (h : isWord lx) :
    ∀ kv ∈ keywords, lexemeGrammar kv.2 lx := by
  intro kv hkv
  simp only [keywords, List.mem_cons, List.mem_singleton, List.not_mem_nil, or_false] at hkv
  rcases hkv with h' | h' | h' | h' | h' | h' | h' | h' | h' | h' | h' | h' | h' | h' | h' | h' <;>
    subst h' <;> exact h

/-- The lexeme of the token of a step matches the grammar of its kind. -/
theorem lexOne_grammar (i : Nat) (c : Char) (tl : List Char) (st : Step) (line : Nat)
    (h : lexOne i c tl = .ok st) :
    ∀ t ∈ st.tokens line (c :: tl), lexemeGrammar t.type t.lexeme := by
  revert h
  refine lexOne_cases
    (fun r => r = .ok st → ∀ t ∈ st.tokens line (c :: tl), lexemeGrammar t.type t.lexeme)
    i c tl ?_ ?_ ?_ ?_ ?_ ?_ ?_ ?_ ?_
  · intro ty hty h t ht; cases h
    simp only [Step.tokens, List.mem_singleton] at ht
    subst ht
    exact oneCharTokens_grammar _ hty
  · intro ty hty hm h t ht; cases h
    simp only [Step.tokens, List.mem_singleton] at ht
    subst ht
    cases tl with
    | nil => simp at hm
    | cons a tl =>
      simp only [List.head?_cons, Option.some.injEq] at hm
      subst hm
      exact twoCharTokens_grammar _ hty
  · intro _ _ h t ht; cases h; simp [Step.tokens] at ht
  · intro _ h t ht; cases h; simp [Step.tokens] at ht
  · intro _ h t ht; cases h; simp [Step.tokens] at ht
  · intro hc h t ht; cases h
    subst hc
    have htk := lexString_take tl
    simp only [lexString] at ht htk
    split_ifs at ht htk with hend
    · simp [Step.tokens] at ht
    · simp only [Step.tokens, List.mem_singleton] at ht
      subst ht
      refine ⟨tl.takeWhile (fun c => decide (c ≠ '\"')), ?_, htk⟩
      intro hm
      have := takeWhile_mem _ _ _ hm
      simp at this
  · intro hc h t ht
    unfold lexNumber at h
    cases hs : stod ((c :: tl).take (1 + numberLength tl)) with
    | error e => rw [hs] at h; cases h
    | ok d =>
      rw [hs] at h; cases h
      simp only [Step.tokens, List.mem_singleton] at ht
      subst ht
      have hds : ∀ x ∈ c :: tl.takeWhile isDigit, isDigit x = true := by
        intro x hx
        rcases List.mem_cons.mp hx with hx | hx
        · rw [hx]; exact hc
        · exact takeWhile_mem _ _ x hx
      refine ⟨c :: tl.takeWhile isDigit, List.cons_ne_nil _ _, hds, ?_⟩
      rcases number_lexeme c tl with hl | ⟨fs, hfne, hf, hl⟩
      · exact Or.inl hl
      · exact Or.inr ⟨fs, hfne, hf, hl⟩
  · intro hc h t ht; cases h
    simp only [lexIdentifier, Step.tokens, List.mem_singleton] at ht
    subst ht
    simp only
    have hlex : (c :: tl).take (1 + (tl.takeWhile isAlphaNumeric).length) =
        c :: tl.takeWhile isAlphaNumeric := by
      rw [Nat.add_comm, List.take_succ_cons, take_takeWhile_length]
    have hword : isWord ((c :: tl).take (1 + (tl.takeWhile isAlphaNumeric).length)) :=
      ⟨c, tl.takeWhile isAlphaNumeric, hlex, hc, takeWhile_mem _ _⟩
    cases hk : keywordsFind ((c :: tl).take (i + (1 + (tl.takeWhile isAlphaNumeric).length))) with
    | none => exact hword
    | some k => exact keywords_grammar _ hword _ (keywordsFind_mem _ _ hk)
  · intro _ _ _ _ h t ht; cases h; simp [Step.tokens] at ht

/-- Claim C18: whenever `scanTokens` returns, the lexeme of every token matches the
lexical grammar of its kind: a punctuation or operator kind has its fixed spelling, a
`NUMBER` is a non-empty run of digits optionally followed by one dot and a non-empty run
of digits, an `IDENTIFIER` or keyword begins with a letter or underscore and holds only
letters, digits and underscores, a `STRING` begins and ends with a double quote and has
none in between, and the end-of-input token has the empty lexeme. -/
theorem lexeme_matches_grammar (src : List Char) (toks : List Token)
    (errs : List (Nat × String)) (h : scan src = .ok (toks, errs)) :
    ∀ t ∈ toks, lexemeGrammar t.type t.lexeme := by
  rw [scan_eq] at h
  cases hr : lexAll src.length 0 1 src with
  | error e => rw [hr] at h; cases h
  | ok r =>
    obtain ⟨ts, es, l⟩ := r
    rw [hr] at h
    simp only [Except.ok.injEq, Prod.mk.injEq] at h
    intro t ht
    rw [← h.1] at ht
    rcases List.mem_append.mp ht with ht | ht
    · exact lexAll_tokens_forall _
        (fun i c tl st line hl => lexOne_grammar i c tl st line hl) _ _ _ _ _ _ _ hr t ht
    · simp only [List.mem_singleton] at ht
      subst ht
      rfl

theorem lexeme_matches_grammar_witness :
    scan "if (a1 >= 2.5) \"s\"".toList = .ok
      ([⟨.IF, "if".toList, none, 1⟩, ⟨.LEFT_PAREN, "(".toList, none, 1⟩,
        ⟨.IDENTIFIER, "a1".toList, none, 1⟩, ⟨.GREATER_EQUAL, ">=".toList, none, 1⟩,
        ⟨.NUMBER, "2.5".toList, some (.number ⟨5, -1⟩), 1⟩,
        ⟨.RIGHT_PAREN, ")".toList, none, 1⟩,
        ⟨.STRING, "\"s\"".toList, some (.text "\"s\"".toList), 1⟩,
        ⟨.EOF_LOX, [], none, 1⟩], []) ∧
    ∀ t ∈ ([⟨.IF, "if".toList, none, 1⟩, ⟨.LEFT_PAREN, "(".toList, none, 1⟩,
        ⟨.IDENTIFIER, "a1".toList, none, 1⟩, ⟨.GREATER_EQUAL, ">=".toList, none, 1⟩,
        ⟨.NUMBER, "2.5".toList, some (.number ⟨5, -1⟩), 1⟩,
        ⟨.RIGHT_PAREN, ")".toList, none, 1⟩,
        ⟨.STRING, "\"s\"".toList, some (.text "\"s\"".toList), 1⟩,
        ⟨.EOF_LOX, [], none, 1⟩] : List Token), lexemeGrammar t.type t.lexeme :=
  ⟨by decide, lexeme_matches_grammar "if (a1 >= 2.5) \"s\"".toList _ [] (by decide)⟩

/-! ## The cursor invariant -/

theorem whileLoop_preserves (I : Scanner → Prop) (cond : Scanner → Bool)
    (body : Scanner → Scanner) (hb : ∀ s, I s → cond s = true → I (body s)) :
    ∀ (k : Nat) (s : Scanner), I s → I (whileLoop cond body k s) := by
  intro k
  induction k with
  | zero => intro s hs; exact hs
  | succ k ih =>
    intro s hs
    rw [whileLoop]
    by_cases hc : cond s = true
    · rw [if_pos hc]; exact ih _ (hb s hs hc)
    · rw [if_neg hc]; exact hs

namespace Scanner

theorem lt_of_not_atEnd (s : Scanner) (h : s.isAtEnd = false) :
    s.current < s.source.length := by
  simp only [isAtEnd, decide_eq_false_iff_not] at h
  omega

theorem peek_atEnd (s : Scanner) (h : s.isAtEnd = true) : s.peek = nul := by
  simp [peek, h]

theorem not_atEnd_of_peek (s : Scanner) (p : Char → Bool) (hp : p nul = false)
    (h : p s.peek = true) : s.isAtEnd = false := by
  cases he : s.isAtEnd with
  | false => rfl
  | true => rw [peek_atEnd s he, hp] at h; cases h

theorem advance_inv (s : Scanner) (hs : s.Inv) (h : s.isAtEnd = false) :
    s.advance.2.Inv ∧ s.advance.2.line = s.line ∧ s.advance.2.source = s.source := by
  have := lt_of_not_atEnd s h
  obtain ⟨h1, h2, h3⟩ := hs
  refine ⟨⟨?_, ?_, h3⟩, rfl, rfl⟩
  · simp only [advance]; omega
  · simp only [advance]; omega

theorem matchChar_inv (s : Scanner) (e : Char) (hs : s.Inv) :
    (s.matchChar e).2.Inv ∧ (s.matchChar e).2.line = s.line := by
  unfold matchChar
  cases he : s.isAtEnd with
  | true => exact ⟨hs, rfl⟩
  | false =>
    simp only [Bool.false_eq_true, if_false]
    by_cases hc : s.source.getD s.current nul ≠ e
    · rw [if_pos hc]; exact ⟨hs, rfl⟩
    · rw [if_neg hc]
      have := advance_inv s hs he
      exact ⟨this.1, this.2.1⟩

theorem loops_guard (s : Scanner) :
    ∀ L ∈ loops, L.1 s = true → s.isAtEnd = false := by
  intro L hL hc
  simp only [loops, List.mem_cons, List.mem_singleton, List.not_mem_nil, or_false] at hL
  rcases hL with rfl | rfl | rfl | rfl
  · exact not_atEnd_of_peek s isDigit isDigit_nul hc
  · exact not_atEnd_of_peek s isAlphaNumeric isAlphaNumeric_nul hc
  · simp only [Bool.and_eq_true, Bool.not_eq_true'] at hc; exact hc.2
  · simp only [Bool.and_eq_true, Bool.not_eq_true'] at hc; exact hc.2

theorem loops_body (s : Scanner) (line0 : Nat) :
    ∀ L ∈ loops, s.Inv ∧ line0 ≤ s.line → L.1 s = true →
      (L.2 s).Inv ∧ line0 ≤ (L.2 s).line := by
  intro L hL hs hc
  have hg := loops_guard s L hL hc
  have ha := advance_inv s hs.1 hg
  simp only [loops, List.mem_cons, List.mem_singleton, List.not_mem_nil, or_false] at hL
  rcases hL with rfl | rfl | rfl | rfl
  · exact ⟨ha.1, by rw [ha.2.1]; exact hs.2⟩
  · exact ⟨ha.1, by rw [ha.2.1]; exact hs.2⟩
  · exact ⟨ha.1, by rw [ha.2.1]; exact hs.2⟩
  · simp only
    by_cases hn : s.peek = '\n'
    · rw [if_pos hn]
      have hs' : ({ s with line := s.line + 1 } : Scanner).Inv :=
        ⟨hs.1.1, hs.1.2.1, by simp only; omega⟩
      have ha' := advance_inv { s with line := s.line + 1 } hs' hg
      refine ⟨ha'.1, ?_⟩
      rw [ha'.2.1]; simp only; omega
    · rw [if_neg hn]
      exact ⟨ha.1, by rw [ha.2.1]; exact hs.2⟩

theorem loops_inv (s : Scanner) (hs : s.Inv) :
    ∀ L ∈ loops, ∀ k, (whileLoop L.1 L.2 k s).Inv ∧ s.line ≤ (whileLoop L.1 L.2 k s).line := by
  intro L hL k
  exact whileLoop_preserves (fun s' => s'.Inv ∧ s.line ≤ s'.line) L.1 L.2
    (fun s' hs' hc => loops_body s' s.line L hL hs' hc) k s ⟨hs, le_refl _⟩

theorem addToken_inv (s : Scanner) (ty : TokenType) (lit : Literal) (hs : s.Inv) :
    (s.addToken ty lit).Inv ∧ (s.addToken ty lit).line = s.line := ⟨hs, rfl⟩

theorem error_handler_inv (s : Scanner) (line : Nat) (msg : String) (hs : s.Inv) :
    (s.error_handler line msg).Inv ∧ (s.error_handler line msg).line = s.line := ⟨hs, rfl⟩

theorem scanString_inv (s : Scanner) (hs : s.Inv) :
    s.scanString.Inv ∧ s.line ≤ s.scanString.line := by
  have hl := loops_inv s hs _ (by simp [loops] :
    ((fun s : Scanner => decide (s.peek ≠ '\"') && !s.isAtEnd,
      fun s : Scanner =>
        (if s.peek = '\n' then { s with line := s.line + 1 } else s).advance.2) :
      (Scanner → Bool) × (Scanner → Scanner)) ∈ loops) s.fuel
  simp only at hl
  unfold scanString
  simp only
  generalize whileLoop (fun s => decide (s.peek ≠ '\"') && !s.isAtEnd)
    (fun s => (if s.peek = '\n' then { s with line := s.line + 1 } else s).advance.2)
    s.fuel s = s1 at hl ⊢
  cases he : s1.isAtEnd with
  | true => simp only [if_true]; exact ⟨hl.1, hl.2⟩
  | false =>
    simp only [Bool.false_eq_true, if_false]
    have ha := advance_inv s1 hl.1 he
    exact ⟨ha.1, by show s.line ≤ s1.advance.2.line; rw [ha.2.1]; exact hl.2⟩

theorem scanIdentifier_inv (s : Scanner) (hs : s.Inv) :
    s.scanIdentifier.Inv ∧ s.line ≤ s.scanIdentifier.line := by
  have hl := loops_inv s hs _ (by simp [loops] :
    ((fun s : Scanner => isAlphaNumeric s.peek, fun s : Scanner => s.advance.2) :
      (Scanner → Bool) × (Scanner → Scanner)) ∈ loops) s.fuel
  exact hl

theorem scanNumber_inv (s s' : Scanner) (hs : s.Inv) (h : s.scanNumber = .ok s') :
    s'.Inv ∧ s.line ≤ s'.line := by
  have hmem : ((fun s : Scanner => isDigit s.peek, fun s : Scanner => s.advance.2) :
      (Scanner → Bool) × (Scanner → Scanner)) ∈ loops := by simp [loops]
  have hl := loops_inv s hs _ hmem s.fuel
  simp only at hl
  unfold scanNumber at h
  simp only at h
  generalize whileLoop (fun s => isDigit s.peek) (fun s => s.advance.2) s.fuel s = s1 at hl h
  have h2 : ∀ s2 : Scanner, s2.Inv ∧ s.line ≤ s2.line →
      (match stod ((s2.source.drop s2.start).take (s2.current - s2.start)) with
        | .error e => .error e
        | .ok d => .ok (s2.addToken .NUMBER (some (.number d)))) = Except.ok s' →
      s'.Inv ∧ s.line ≤ s'.line := by
    intro s2 hs2 h
    cases hst : stod ((s2.source.drop s2.start).take (s2.current - s2.start)) with
    | error e => rw [hst] at h; cases h
    | ok d =>
      rw [hst] at h
      simp only [Except.ok.injEq] at h
      subst h
      exact hs2
  by_cases hf : s1.peek = '.' ∧ isDigit s1.peekNext = true
  · rw [if_pos hf] at h
    have he : s1.isAtEnd = false := by
      cases he : s1.isAtEnd with
      | false => rfl
      | true =>
        have := peek_atEnd s1 he
        rw [this] at hf
        exact absurd hf.1 (by decide)
    have ha := advance_inv s1 hl.1 he
    have hl2 := loops_inv s1.advance.2 ha.1 _ hmem s1.advance.2.fuel
    simp only at hl2
    refine h2 _ ⟨hl2.1, ?_⟩ h
    have := hl2.2
    rw [ha.2.1] at this
    omega
  · rw [if_neg hf] at h
    exact h2 s1 hl h

theorem scanLoop_inv : ∀ (k : Nat) (s s' : Scanner), s.Inv → scanLoop k s = .ok s' →
    s'.Inv ∧ s.line ≤ s'.line := by
  intro k
  induction k with
  | zero =>
    intro s s' hs h
    simp only [scanLoop, Except.ok.injEq] at h
    subst h
    exact ⟨hs, le_refl _⟩
  | succ k ih =>
    intro s s' hs h
    simp only [scanLoop] at h
    cases hend : s.isAtEnd with
    | true =>
      simp only [hend, Bool.not_true, Bool.false_eq_true, if_false, Except.ok.injEq] at h
      subst h
      exact ⟨hs, le_refl _⟩
    | false =>
      simp only [hend, Bool.not_false, if_true] at h
      cases ht : scanToken { s with start := s.current } with
      | error e => rw [ht] at h; cases h
      | ok s1 =>
        rw [ht] at h
        simp only at h
        obtain ⟨p1, p2, p3, p4, p5⟩ := scanToken_progress s s1 (lt_of_not_atEnd s hend) ht
        have hs1 : s1.Inv := ⟨by omega, by rw [p3]; exact p2, by have := hs.2.2; omega⟩
        have := ih s1 s' hs1 h
        exact ⟨this.1, by omega⟩

/-- One more iteration of the main loop. -/
theorem scanLoop_succ : ∀ (k : Nat) (s : Scanner),
    scanLoop (k + 1) s =
      match scanLoop k s with
      | .error e => .error e
      | .ok s1 => scanLoop 1 s1 := by
  intro k
  induction k with
  | zero => intro s; rfl
  | succ k ih =>
    intro s
    rw [scanLoop]
    cases hend : s.isAtEnd with
    | true => simp [scanLoop, hend]
    | false =>
      simp only [Bool.not_false, if_true]
      cases ht : scanToken { s with start := s.current } with
      | error e => simp [scanLoop, hend, ht]
      | ok s1 =>
        simp only
        rw [ih s1]
        conv_rhs => rw [scanLoop]
        simp only [hend, Bool.not_false, if_true, ht]

end Scanner
/-- Claim C16: the cursor invariant `0 <= start <= current <= length(source)` and
`line >= 1` holds in the initial state and is kept, with `line` never lowered, by every
step of a scan: by `start = current` and `line++`, by `advance` (which the scanner only
calls when not at the end), by `match`, `addToken` and the error handler, by every
iteration of the four loops, by `scanString`, `scanIdentifier`, `scanNumber` and
`scanToken`, and so by every iteration of the main loop and by `scanTokens`.  A read
guarded by `!isAtEnd()` is at an index strictly below `length(source)`, and the
conditions under which the scanner calls `advance` (a loop condition, a peeked `.`) and
reads in `match` imply `!isAtEnd()`. -/
theorem cursor_invariant (src : List Char) :
    (Scanner.new src).Inv ∧
    (∀ s : Scanner, s.isAtEnd = false → s.current < s.source.length) ∧
    (∀ s : Scanner, s.Inv →
      ({ s with start := s.current } : Scanner).Inv ∧
      ({ s with line := s.line + 1 } : Scanner).Inv) ∧
    (∀ s : Scanner, s.Inv → s.isAtEnd = false →
      s.advance.2.Inv ∧ s.advance.2.line = s.line) ∧
    (∀ (s : Scanner) (e : Char), s.Inv →
      (s.matchChar e).2.Inv ∧ (s.matchChar e).2.line = s.line ∧
      ((s.matchChar e).1 = true → s.isAtEnd = false)) ∧
    (∀ (s : Scanner) (ty : TokenType) (lit : Literal), s.Inv →
      (s.addToken ty lit).Inv ∧ (s.addToken ty lit).line = s.line) ∧
    (∀ (s : Scanner) (line : Nat) (msg : String), s.Inv →
      (s.error_handler line msg).Inv ∧ (s.error_handler line msg).line = s.line) ∧
    (∀ s : Scanner, s.Inv → ∀ L ∈ Scanner.loops,
      (L.1 s = true → s.isAtEnd = false) ∧
      ∀ k, (whileLoop L.1 L.2 k s).Inv ∧ s.line ≤ (whileLoop L.1 L.2 k s).line) ∧
    (∀ s : Scanner, s.peek = '.' → s.isAtEnd = false) ∧
    (∀ s : Scanner, s.Inv → s.scanString.Inv ∧ s.line ≤ s.scanString.line) ∧
    (∀ s : Scanner, s.Inv → s.scanIdentifier.Inv ∧ s.line ≤ s.scanIdentifier.line) ∧
    (∀ s s' : Scanner, s.Inv → s.scanNumber = .ok s' → s'.Inv ∧ s.line ≤ s'.line) ∧
    (∀ s s' : Scanner, s.Inv → s.isAtEnd = false →
      Scanner.scanToken { s with start := s.current } = .ok s' →
      s'.Inv ∧ s.line ≤ s'.line) ∧
    (∀ (k : Nat) (s' : Scanner), Scanner.scanLoop k (Scanner.new src) = .ok s' → s'.Inv) ∧
    (∀ (k : Nat) (s1 s2 : Scanner), Scanner.scanLoop k (Scanner.new src) = .ok s1 →
      Scanner.scanLoop (k + 1) (Scanner.new src) = .ok s2 → s1.line ≤ s2.line) ∧
    (∀ s' : Scanner, (Scanner.new src).scanTokens = .ok s' → s'.Inv) := by
  have hnew : (Scanner.new src).Inv := ⟨le_refl _, Nat.zero_le _, le_refl _⟩
  refine ⟨hnew, Scanner.lt_of_not_atEnd, ?_, ?_, ?_, Scanner.addToken_inv,
    Scanner.error_handler_inv, ?_, ?_, Scanner.scanString_inv, Scanner.scanIdentifier_inv,
    Scanner.scanNumber_inv, ?_, ?_, ?_, ?_⟩
  · intro s hs
    exact ⟨⟨le_refl _, hs.2.1, hs.2.2⟩, ⟨hs.1, hs.2.1, by simp only; omega⟩⟩
  · intro s hs he
    have := Scanner.advance_inv s hs he
    exact ⟨this.1, this.2.1⟩
  · intro s e hs
    have := Scanner.matchChar_inv s e hs
    refine ⟨this.1, this.2, ?_⟩
    intro hm
    cases he : s.isAtEnd with
    | false => rfl
    | true => simp [Scanner.matchChar, he] at hm
  · intro s hs L hL
    exact ⟨Scanner.loops_guard s L hL, Scanner.loops_inv s hs L hL⟩
  · intro s hp
    cases he : s.isAtEnd with
    | false => rfl
    | true =>
      rw [Scanner.peek_atEnd s he] at hp
      exact absurd hp (by decide)
  · intro s s' hs he h
    obtain ⟨p1, p2, p3, p4, p5⟩ :=
      Scanner.scanToken_progress s s' (Scanner.lt_of_not_atEnd s he) h
    exact ⟨⟨by omega, by rw [p3]; exact p2, by have := hs.2.2; omega⟩, p5⟩
  · intro k s' h
    exact (Scanner.scanLoop_inv k _ s' hnew h).1
  · intro k s1 s2 h1 h2
    rw [Scanner.scanLoop_succ, h1] at h2
    simp only at h2
    have hs1 := (Scanner.scanLoop_inv k _ s1 hnew h1).1
    exact (Scanner.scanLoop_inv 1 s1 s2 hs1 h2).2
  · intro s' h
    unfold Scanner.scanTokens at h
    cases hl : Scanner.scanLoop (Scanner.new src).fuel (Scanner.new src) with
    | error e => rw [hl] at h; cases h
    | ok s1 =>
      rw [hl] at h
      simp only [Except.ok.injEq] at h
      subst h
      exact (Scanner.scanLoop_inv _ _ s1 hnew hl).1

theorem cursor_invariant_witness :
    (Scanner.new "\"a\nb\" 1".toList).scanTokens = .ok
      ⟨"\"a\nb\" 1".toList,
        [⟨.STRING, "\"a\nb\"".toList, some (.text "\"a\nb\"".toList), 2⟩,
          ⟨.NUMBER, "1".toList, some (.number ⟨1, 0⟩), 2⟩, ⟨.EOF_LOX, [], none, 2⟩],
        [], 6, 7, 2⟩ ∧
    Scanner.Inv ⟨"\"a\nb\" 1".toList,
        [⟨.STRING, "\"a\nb\"".toList, some (.text "\"a\nb\"".toList), 2⟩,
          ⟨.NUMBER, "1".toList, some (.number ⟨1, 0⟩), 2⟩, ⟨.EOF_LOX, [], none, 2⟩],
        [], 6, 7, 2⟩ :=
  ⟨by decide,
    (cursor_invariant "\"a\nb\" 1".toList).2.2.2.2.2.2.2.2.2.2.2.2.2.2.2 _ (by decide)⟩

/-! ## The spans handed to `std::stod` -/

namespace Scanner

/-- The function `scanNumber` converts its span `numberSpan` and adds the token. -/
theorem scanNumber_eq_span (s : Scanner) :
    s.scanNumber =
      match stod s.numberSpan with
      | .error e => .error e
      | .ok d => .ok (s.numberEnd.addToken .NUMBER (some (.number d))) := rfl

theorem numberSpan_eq (s : Scanner) (c : Char) (tl : List Char)
    (h : s.source.drop s.current = c :: tl) (hs : s.start = s.current) :
    ({ s with current := s.current + 1 } : Scanner).numberSpan =
      (c :: tl).take (1 + numberLength tl) := by
  obtain ⟨src, toks, errs, st, cur, ln⟩ := s
  simp only at h hs
  subst hs
  have h0 := drop_add_of_drop h 0
  simp only [Nat.add_zero, List.drop_zero] at h0
  have hd := whileLoop_advance isDigit (fun s => isDigit s.peek) (cond_of_nul isDigit isDigit_nul)
  unfold numberSpan numberEnd
  simp only [hd _ _ (le_refl _)]
  simp only [peek_eq, peekNext_eq, advance, h0, drop_add_of_drop h]
  unfold numberLength
  by_cases hfrac : (tl.drop (tl.takeWhile isDigit).length).headD nul = '.' ∧
      isDigit ((tl.drop (tl.takeWhile isDigit).length).tail.headD nul) = true
  · simp only [hfrac, and_self, if_true]
    have e1 : List.drop (st + 1 + (List.takeWhile isDigit tl).length + 1) src =
        (tl.drop (tl.takeWhile isDigit).length).tail := by
      rw [Nat.add_assoc (st + 1), drop_add_of_drop h, ← List.drop_drop, List.drop_one]
    have e2 : ∀ n, st + 1 + (List.takeWhile isDigit tl).length + 1 + n - st =
        1 + ((List.takeWhile isDigit tl).length + 1 + n) := by intro n; omega
    simp only [e1, e2, h]
  · simp only [hfrac, if_false]
    have e2 : st + 1 + (List.takeWhile isDigit tl).length - st =
        1 + (List.takeWhile isDigit tl).length := by omega
    simp only [e2, h]

end Scanner

theorem lexOne_error_digit (i : Nat) (c : Char) (tl : List Char) (e : Exception)
    (h : lexOne i c tl = .error e) : isDigit c = true := by
  revert h
  refine lexOne_cases (fun r => r = .error e → isDigit c = true) i c tl
    ?_ ?_ ?_ ?_ ?_ ?_ ?_ ?_ ?_
  · intro _ _ h; cases h
  · intro _ _ _ h; cases h
  · intro _ _ h; cases h
  · intro _ h; cases h
  · intro _ h; cases h
  · intro _ h; cases h
  · intro hc _; exact hc
  · intro _ h; cases h
  · intro _ _ _ _ h; cases h

theorem lexOne_not_number (i : Nat) (c : Char) (tl : List Char) (st : Step) (line : Nat)
    (hc : isDigit c = false) (h : lexOne i c tl = .ok st) :
    ∀ t ∈ st.tokens line (c :: tl), t.type ≠ .NUMBER := by
  intro t ht hty
  rcases lexOne_literal i c tl st line h t ht with ⟨_, d, hd⟩ | ⟨h1, _⟩ | ⟨h1, _⟩
  · revert h ht hd
    refine lexOne_cases (fun r => r = .ok st → t ∈ st.tokens line (c :: tl) →
      t.literal = some (.number d) → False) i c tl ?_ ?_ ?_ ?_ ?_ ?_ ?_ ?_ ?_
    · intro _ _ h ht hd; cases h
      simp only [Step.tokens, List.mem_singleton] at ht
      subst ht; cases hd
    · intro _ _ _ h ht hd; cases h
      simp only [Step.tokens, List.mem_singleton] at ht
      subst ht; cases hd
    · intro _ _ h ht _; cases h; simp [Step.tokens] at ht
    · intro _ h ht _; cases h; simp [Step.tokens] at ht
    · intro _ h ht _; cases h; simp [Step.tokens] at ht
    · intro _ h ht hd; cases h
      simp only [lexString] at ht
      split_ifs at ht
      · simp [Step.tokens] at ht
      · simp only [Step.tokens, List.mem_singleton] at ht
        subst ht; cases hd
    · intro hc'; rw [hc] at hc'; cases hc'
    · intro _ h ht hd; cases h
      simp only [lexIdentifier, Step.tokens, List.mem_singleton] at ht
      subst ht; cases hd
    · intro _ _ _ _ h ht _; cases h; simp [Step.tokens] at ht
  · rw [hty] at h1; cases h1
  · exact h1 hty

namespace Scanner

theorem convertedSpans_atEnd (n : Nat) (s : Scanner) (h : s.isAtEnd = true) :
    s.convertedSpans n = [] := by
  cases n with
  | zero => rfl
  | succ n => simp [convertedSpans, h]

/-- One iteration of the instrumented main loop, read through the list view. -/
theorem convertedSpans_succ (n : Nat) (s : Scanner) (c : Char) (tl : List Char)
    (h : s.source.drop s.current = c :: tl) :
    s.convertedSpans (n + 1) =
      (if isDigit c then [(c :: tl).take (1 + numberLength tl)] else []) ++
        match lexOne s.current c tl with
        | .error _ => []
        | .ok st => (st.apply { s with start := s.current }).convertedSpans n := by
  have hend : s.isAtEnd = false := by rw [isAtEnd_eq, h]; rfl
  have hst := scanToken_eq { s with start := s.current } c tl h rfl
  have hsp := numberSpan_eq { s with start := s.current } c tl h rfl
  have hadv : ({ s with start := s.current } : Scanner).advance =
      (c, { s with start := s.current, current := s.current + 1 }) := by
    rw [advance, getD_eq_headD_drop]
    simp only [h, List.headD_cons]
  rw [convertedSpans]
  simp only [hend, Bool.not_false, if_true, hst, hadv, hsp]
  cases lexOne s.current c tl with
  | error e => simp
  | ok st => rfl

/-- The main loop returns when `std::stod` raises no range error on the spans it is
handed. -/
theorem scanLoop_ok_of_spans : ∀ (n : Nat) (s : Scanner),
    (∀ t ∈ s.convertedSpans n, stod t ≠ .error .out_of_range) →
    ∃ s', scanLoop n s = .ok s' := by
  intro n
  induction n with
  | zero => intro s _; exact ⟨s, rfl⟩
  | succ n ih =>
    intro s H
    cases hd : s.source.drop s.current with
    | nil =>
      have hend : s.isAtEnd = true := by rw [isAtEnd_eq, hd]; rfl
      exact ⟨s, by simp [scanLoop, hend]⟩
    | cons c tl =>
      have hend : s.isAtEnd = false := by rw [isAtEnd_eq, hd]; rfl
      have hst := scanToken_eq { s with start := s.current } c tl hd rfl
      rw [convertedSpans_succ n s c tl hd] at H
      simp only [scanLoop, hend, Bool.not_false, if_true, hst]
      cases hl : lexOne s.current c tl with
      | error e =>
        exfalso
        have hc := lexOne_error_digit _ _ _ _ hl
        have h2 := (lexOne_error _ _ _ _ hl).2
        exact H _ (by simp [hc]) h2
      | ok st =>
        simp only
        apply ih
        intro t ht
        apply H
        rw [hl]
        exact List.mem_append_right _ ht

/-- When the main loop returns, the lexemes of the `NUMBER` tokens it has added are the
spans handed to `std::stod`, and each was converted. -/
theorem scanLoop_spans : ∀ (n : Nat) (s s' : Scanner), scanLoop n s = .ok s' →
    (s'.tokens.filter (fun t => decide (t.type = .NUMBER))).map Token.lexeme =
      (s.tokens.filter (fun t => decide (t.type = .NUMBER))).map Token.lexeme ++
        s.convertedSpans n ∧
    ∀ t ∈ s.convertedSpans n, ∃ d, stod t = .ok d := by
  intro n
  induction n with
  | zero =>
    intro s s' h
    simp only [scanLoop, Except.ok.injEq] at h
    subst h
    simp [convertedSpans]
  | succ n ih =>
    intro s s' h
    cases hd : s.source.drop s.current with
    | nil =>
      have hend : s.isAtEnd = true := by rw [isAtEnd_eq, hd]; rfl
      simp only [scanLoop, hend, Bool.not_true, Bool.false_eq_true, if_false,
        Except.ok.injEq] at h
      subst h
      simp [convertedSpans_atEnd _ _ hend]
    | cons c tl =>
      have hend : s.isAtEnd = false := by rw [isAtEnd_eq, hd]; rfl
      have hst := scanToken_eq { s with start := s.current } c tl hd rfl
      rw [convertedSpans_succ n s c tl hd]
      simp only [scanLoop, hend, Bool.not_false, if_true, hst] at h
      cases hl : lexOne s.current c tl with
      | error e => rw [hl] at h; cases h
      | ok st =>
        rw [hl] at h
        simp only at h ⊢
        obtain ⟨ih1, ih2⟩ := ih _ _ h
        have hf := (apply_fields st { s with start := s.current } c tl hd rfl).2.2.2.1
        simp only at hf
        rw [ih1, hf, List.filter_append, List.map_append, List.append_assoc]
        by_cases hc : isDigit c = true
        · have hl' := hl
          rw [lexOne_digit _ c tl hc] at hl'
          unfold lexNumber at hl'
          cases hs : stod ((c :: tl).take (1 + numberLength tl)) with
          | error e => rw [hs] at hl'; cases hl'
          | ok d =>
            rw [hs] at hl'
            simp only [Except.ok.injEq] at hl'
            subst hl'
            simp only [hc, if_true, Step.tokens, List.singleton_append]
            refine ⟨by simp, ?_⟩
            intro t ht
            rcases List.mem_cons.mp ht with ht | ht
            · exact ⟨d, by rw [ht]; exact hs⟩
            · exact ih2 t ht
        · simp only [Bool.not_eq_true] at hc
          have hnn := lexOne_not_number _ c tl st s.line hc hl
          have hfil : (st.tokens s.line (c :: tl)).filter
              (fun t => decide (t.type = .NUMBER)) = [] := by
            apply List.filter_eq_nil_iff.mpr
            intro t ht
            simpa using hnn t ht
          simp only [hc, Bool.false_eq_true, if_false, hfil, List.map_nil, List.nil_append]
          exact ⟨trivial, ih2⟩

/-- The main loop fails only with `std::out_of_range`. -/
theorem scanLoop_error : ∀ (n : Nat) (s : Scanner) (e : Exception),
    scanLoop n s = .error e → e = .out_of_range := by
  intro n
  induction n with
  | zero => intro s e h; cases h
  | succ n ih =>
    intro s e h
    cases hd : s.source.drop s.current with
    | nil =>
      have hend : s.isAtEnd = true := by rw [isAtEnd_eq, hd]; rfl
      simp [scanLoop, hend] at h
    | cons c tl =>
      have hend : s.isAtEnd = false := by rw [isAtEnd_eq, hd]; rfl
      have hst := scanToken_eq { s with start := s.current } c tl hd rfl
      simp only [scanLoop, hend, Bool.not_false, if_true, hst] at h
      cases hl : lexOne s.current c tl with
      | error e' =>
        rw [hl] at h
        simp only [Except.error.injEq] at h
        rw [← h]
        exact (lexOne_error _ _ _ _ hl).1
      | ok st =>
        rw [hl] at h
        exact ih _ _ h

end Scanner

theorem numberSpans_digits (c : Char) (tl : List Char) (h : ∀ x ∈ c :: tl, isDigit x = true) :
    numberSpans (c :: tl) = [c :: tl] := by
  have hc : isDigit c = true := h c (List.mem_cons_self _ _)
  have htl : ∀ x ∈ tl, isDigit x = true := fun x hx => h x (List.mem_cons_of_mem _ hx)
  have htake : (c :: tl).take (1 + tl.length) = c :: tl := by
    rw [Nat.add_comm, List.take_succ_cons, List.take_length]
  unfold numberSpans
  rw [List.length_cons, Scanner.convertedSpans_succ tl.length (Scanner.new (c :: tl)) c tl rfl]
  simp only [hc, if_true, numberLength_digits tl htl, htake]
  cases hl : lexOne (Scanner.new (c :: tl)).current c tl with
  | error e => rfl
  | ok st =>
    simp only
    have hl' := hl
    rw [lexOne_digit _ c tl hc] at hl'
    unfold lexNumber at hl'
    rw [numberLength_digits tl htl] at hl'
    cases hs : stod ((c :: tl).take (1 + tl.length)) with
    | error e => rw [hs] at hl'; cases hl'
    | ok d =>
      rw [hs] at hl'
      simp only [Except.ok.injEq] at hl'
      subst hl'
      have hend : (Step.apply ⟨1 + tl.length, 0, .token .NUMBER (some (.number d))⟩
          { Scanner.new (c :: tl) with start := (Scanner.new (c :: tl)).current }).isAtEnd
          = true := by
        simp only [Step.apply, Scanner.addToken, Scanner.isAtEnd, Scanner.new,
          List.length_cons, decide_eq_true_eq]
        omega
      rw [Scanner.convertedSpans_atEnd _ _ hend]
      rfl

/-- Claim C4, amended: `scanTokens` returns a token sequence normally exactly when
`std::stod` raises no range error on any of the spans that `scanNumber` hands to it;
these spans are the lexemes of the `NUMBER` tokens returned.  The conversion never raises
`std::invalid_argument`: the only exception that leaves `scanTokens` is
`std::out_of_range`.  For a source that is a non-empty run of decimal digits the only
span is the whole source, and when `std::stod` converts it the scan yields a `NUMBER`
token followed by the end-of-input token. -/
theorem scanTokens_returns_iff_spans_in_range (src : List Char) :
    ((∃ toks errs, scan src = .ok (toks, errs)) ↔
      ∀ t ∈ numberSpans src, stod t ≠ .error .out_of_range) ∧
    (∀ e, scan src = .error e → e = .out_of_range) ∧
    (∀ toks errs, scan src = .ok (toks, errs) →
      (toks.filter (fun t => decide (t.type = .NUMBER))).map Token.lexeme = numberSpans src) ∧
    (src ≠ [] → (∀ x ∈ src, isDigit x = true) →
      numberSpans src = [src] ∧
      ∀ d, stod src = .ok d →
        scan src = .ok ([⟨.NUMBER, src, some (.number d), 1⟩, ⟨.EOF_LOX, [], none, 1⟩], [])) := by
  have hscan : scan src =
      match Scanner.scanLoop src.length (Scanner.new src) with
      | .error e => .error e
      | .ok s => .ok (s.tokens ++ [⟨.EOF_LOX, [], none, s.line⟩], s.errors) := by
    unfold scan Scanner.scanTokens
    have hf : (Scanner.new src).fuel = src.length := rfl
    rw [hf]
    cases Scanner.scanLoop src.length (Scanner.new src) <;> rfl
  refine ⟨⟨?_, ?_⟩, ?_, ?_, ?_⟩
  · rintro ⟨toks, errs, h⟩ t ht
    rw [hscan] at h
    cases hl : Scanner.scanLoop src.length (Scanner.new src) with
    | error e => rw [hl] at h; cases h
    | ok s' =>
      obtain ⟨d, hd⟩ := (Scanner.scanLoop_spans _ _ _ hl).2 t ht
      rw [hd]
      intro hne; cases hne
  · intro H
    obtain ⟨s', hs'⟩ := Scanner.scanLoop_ok_of_spans src.length (Scanner.new src) H
    rw [hscan, hs']
    exact ⟨_, _, rfl⟩
  · intro e h
    rw [hscan] at h
    cases hl : Scanner.scanLoop src.length (Scanner.new src) with
    | error e' =>
      rw [hl] at h
      simp only [Except.error.injEq] at h
      rw [← h]
      exact Scanner.scanLoop_error _ _ _ hl
    | ok s' => rw [hl] at h; cases h
  · intro toks errs h
    rw [hscan] at h
    cases hl : Scanner.scanLoop src.length (Scanner.new src) with
    | error e => rw [hl] at h; cases h
    | ok s' =>
      rw [hl] at h
      simp only [Except.ok.injEq, Prod.mk.injEq] at h
      have := (Scanner.scanLoop_spans _ _ _ hl).1
      rw [← h.1, List.filter_append, List.map_append, this]
      simp [Scanner.new, numberSpans]
  · intro hne hd
    cases src with
    | nil => exact absurd rfl hne
    | cons c tl =>
      refine ⟨numberSpans_digits c tl hd, ?_⟩
      intro d hs
      have := scan_digits c tl hd
      rw [hs] at this
      exact this

theorem scanTokens_returns_iff_spans_in_range_witness :
    numberSpans "x = 12 + 3.5".toList = ["12".toList, "3.5".toList] ∧
    (∀ t ∈ numberSpans "x = 12 + 3.5".toList, stod t ≠ .error .out_of_range) ∧
    ∃ toks errs, scan "x = 12 + 3.5".toList = .ok (toks, errs) :=
  ⟨by decide, by decide,
    (scanTokens_returns_iff_spans_in_range "x = 12 + 3.5".toList).1.mpr (by decide)⟩

end Lox
